import Mathlib

/-!
# go-smftool: a shallow embedding of the SMF decoder and the track swap

The Go functions of `util.go`, `smf.go` and `tool.go` are translated to Lean
functions.  A byte is a `Fin 256`; a byte slice is a `List Byte` (every slice
the decoder hands around is a suffix of a freshly made buffer, so its capacity
equals its length); an `io.Reader` is the list of the bytes it still holds.
Go's `uint32` arithmetic is `Nat` arithmetic with an explicit `% 2 ^ 32`.
A Go call either returns a value, returns an error, or stops with a run-time
panic (index or slice bound out of range); `Outcome` has one constructor for
each, and one more for the exhaustion of the fuel of the event loop.
-/

namespace Smftool

/-- A byte of the input. -/
abbrev Byte := Fin 256

/-- Go conversion `byte(n)`: truncation to eight bits. -/
def toByte (n : Nat) : Byte := ⟨n % 256, Nat.mod_lt n (by decide)⟩

/-- The errors the package returns. -/
inductive Err where
  /-- `io.EOF`: nothing could be read for a header. -/
  | eof
  /-- `io.ErrUnexpectedEOF`: a header was cut short. -/
  | unexpectedEOF
  /-- "smftool: invalid header: not found 'MThd'". -/
  | invalidHeader
  /-- "smftool: unsupported SMPTE timing (have: 0x..)". -/
  | unsupportedSMPTE (division : Nat)
  /-- "smftool: invalid running status". -/
  | invalidRunningStatus
  /-- "smftool: invalid track header: not found 'MTrk'". -/
  | invalidTrackHeader
  /-- "smftool: invalid track: unexpected end of track". -/
  | unexpectedEndOfTrack
  /-- "smftool: invalid variable length byte count". -/
  | invalidVariableLength
  /-- "smftool: invalid a or b". -/
  | invalidAB
  deriving DecidableEq

/-- What a Go call does: return a value, return an error, or panic.
`outOfFuel` is the model's own: the event loop was cut by its fuel. -/
inductive Outcome (α : Type) where
  | ok (a : α)
  | error (e : Err)
  | panic
  | outOfFuel
  deriving DecidableEq

/-- Go slice expression `b[n:]` on a slice whose capacity is its length. -/
def sliceFrom (b : List Byte) (n : Nat) : Option (List Byte) :=
  if n ≤ b.length then some (b.drop n) else none

/-- Go slice expression `b[:n]` on a slice whose capacity is its length. -/
def sliceTo (b : List Byte) (n : Nat) : Option (List Byte) :=
  if n ≤ b.length then some (b.take n) else none

/-- Go slice expression `b[lo:hi]` on a slice whose capacity is its length. -/
def sliceRange (b : List Byte) (lo hi : Nat) : Option (List Byte) :=
  if lo ≤ hi ∧ hi ≤ b.length then some ((b.drop lo).take (hi - lo)) else none

/-! ## util.go -/

/-- The loop of `variableLengthUint32`: `k` iterations are left (`4 - i`),
`i` is the loop index, `prod` the accumulator, and the list is `b[i:]`. -/
def vlqLoop : Nat → Nat → Nat → List Byte → Outcome (Nat × Nat)
  | 0, _, _, _ => .error .invalidVariableLength
  | _ + 1, _, _, [] => .error .invalidVariableLength
  | k + 1, i, prod, x :: xs =>
    if x.val &&& 0x80 ≠ 0 then
      vlqLoop k (i + 1) (((prod ||| (x.val &&& 0x7F)) <<< 7) % 2 ^ 32) xs
    else
      .ok (prod ||| x.val, i + 1)

/-- Go `variableLengthUint32(b)`: the value and the number of bytes read. -/
def variableLengthUint32 (b : List Byte) : Outcome (Nat × Nat) :=
  vlqLoop 4 0 0 b

/-! ## smf.go -/

def HeaderLength : Nat := 14

def TrackHeaderLength : Nat := 8

def MTEOT : Nat := 0x2F

def MTSysEx : Nat := 0xF0

def MTSpecialSysEx : Nat := 0xF7

/-- Big-endian value of a list of bytes. -/
def bigEndian (bs : List Byte) : Nat :=
  bs.foldl (fun acc x => acc * 256 + x.val) 0

/-- The four bytes of "MThd". -/
def magicMThd : List Byte := [0x4D, 0x54, 0x68, 0x64]

/-- The four bytes of "MTrk". -/
def magicMTrk : List Byte := [0x4D, 0x54, 0x72, 0x6B]

structure Header where
  ID : List Byte
  Size : Nat
  Format : Nat
  NumTrack : Nat
  Division : Nat
  deriving DecidableEq

/-- Go `readHeader(r)`: the header and the reader after the 14 bytes. -/
def readHeader (r : List Byte) : Outcome (Header × List Byte) :=
  if r.length = 0 then .error .eof
  else if r.length < 14 then .error .unexpectedEOF
  else
    let h : Header :=
      { ID := r.take 4
        Size := bigEndian ((r.drop 4).take 4)
        Format := bigEndian ((r.drop 8).take 2)
        NumTrack := bigEndian ((r.drop 10).take 2)
        Division := bigEndian ((r.drop 12).take 2) }
    if h.ID ≠ magicMThd then .error .invalidHeader
    else if h.Division &&& 0x8000 ≠ 0 then .error (.unsupportedSMPTE h.Division)
    else .ok (h, r.drop 14)

structure Event where
  /-- Go field `Type` (a reserved word here). -/
  Type_ : Byte
  Channel : Byte
  Delta : Nat
  Length : Nat
  Value : List Byte
  deriving DecidableEq

/-- The part of `parseEvent` after the status byte is settled: `status` is the
status byte in force and `b` the bytes that follow it. -/
def parseEventBody (buf : List Byte) (delta : Nat) (status : Byte) (b : List Byte) :
    Outcome Event :=
  if status.val = 0xFF then
    match b with
    | [] => .panic
    | etype :: b =>
      match variableLengthUint32 b with
      | .error e => .error e
      | .panic => .panic
      | .outOfFuel => .outOfFuel
      | .ok (size, n) =>
        match sliceFrom b n with
        | none => .panic
        | some b =>
          match sliceTo b size, sliceFrom b size with
          | some value, some b =>
            .ok { Type_ := etype, Channel := 0, Delta := delta,
                  Length := buf.length - b.length, Value := value }
          | _, _ => .panic
  else if status.val = MTSysEx ∨ status.val = MTSpecialSysEx then
    match variableLengthUint32 b with
    | .error e => .error e
    | .panic => .panic
    | .outOfFuel => .outOfFuel
    | .ok (size, n) =>
      match sliceFrom b n with
      | none => .panic
      | some b =>
        match sliceTo b size, sliceFrom b size with
        | some value, some b =>
          .ok { Type_ := status, Channel := 0, Delta := delta,
                Length := buf.length - b.length, Value := value }
        | _, _ => .panic
  else
    let etype := toByte (status.val &&& 0xF0)
    let channel := toByte (status.val &&& 0x0F)
    let k : Nat :=
      if etype.val = 0x80 ∨ etype.val = 0x90 ∨ etype.val = 0xA0 ∨ etype.val = 0xB0
          ∨ etype.val = 0xE0 then 2
      else if etype.val = 0xC0 ∨ etype.val = 0xD0 then 1
      else 1
    match sliceTo b k, sliceFrom b k with
    | some value, some b =>
      .ok { Type_ := etype, Channel := channel, Delta := delta,
            Length := buf.length - b.length, Value := value }
    | _, _ => .panic

/-- Go `parseEvent(buf, prevEvent)`. -/
def parseEvent (buf : List Byte) (prevEvent : Option Event) : Outcome Event :=
  match variableLengthUint32 buf with
  | .error e => .error e
  | .panic => .panic
  | .outOfFuel => .outOfFuel
  | .ok (delta, n) =>
    match sliceFrom buf n with
    | none => .panic
    | some b =>
      match b with
      | [] => .panic
      | status :: b1 =>
        if status.val &&& 0x80 = 0 then
          match prevEvent with
          | none => .error .invalidRunningStatus
          | some p => parseEventBody buf delta (toByte (p.Type_.val ||| p.Channel.val)) b
        else
          parseEventBody buf delta status b1

structure TrackHeader where
  ID : List Byte
  Length : Nat
  deriving DecidableEq

structure Track where
  Header : TrackHeader
  Events : List Event
  deriving DecidableEq

/-- The `for ePos < eEnd` loop of `readTrack`; the first argument is fuel. -/
def eventLoop : Nat → List Byte → Option Event → Nat → Nat → List Event →
    Outcome (List Event)
  | 0, _, _, _, _, _ => .outOfFuel
  | fuel + 1, buf, prev, ePos, eEnd, events =>
    if ePos < eEnd then
      match parseEvent buf prev with
      | .error e => .error e
      | .panic => .panic
      | .outOfFuel => .outOfFuel
      | .ok e =>
        match sliceFrom buf e.Length with
        | none => .panic
        | some buf1 =>
          if ePos + e.Length > eEnd ∨ (e.Type_.val = MTEOT ∧ ePos + e.Length ≠ eEnd) then
            .error .unexpectedEndOfTrack
          else
            eventLoop fuel buf1 (some e) (ePos + e.Length) eEnd (events ++ [e])
    else .ok events

/-- Go `readTrack(r)`: the track and the reader after the chunk. -/
def readTrack (r : List Byte) : Outcome (Track × List Byte) :=
  if r.length = 0 then .error .eof
  else if r.length < 8 then .error .unexpectedEOF
  else
    let h : TrackHeader := { ID := r.take 4, Length := bigEndian ((r.drop 4).take 4) }
    if h.ID ≠ magicMTrk then .error .invalidTrackHeader
    else
      let r1 := r.drop 8
      if r1.length < h.Length then .error .unexpectedEndOfTrack
      else
        match eventLoop (h.Length + 1) (r1.take h.Length) none 0 h.Length [] with
        | .error e => .error e
        | .panic => .panic
        | .outOfFuel => .outOfFuel
        | .ok events => .ok ({ Header := h, Events := events }, r1.drop h.Length)

/-- Go `readTracks(r, n)`; `acc` holds the tracks read so far. -/
def readTracksAux : Nat → List Byte → List Track → Outcome (List Track)
  | 0, _, acc => .ok acc
  | n + 1, r, acc =>
    match readTrack r with
    | .error e => .error e
    | .panic => .panic
    | .outOfFuel => .outOfFuel
    | .ok (t, r1) => readTracksAux n r1 (acc ++ [t])

/-- Go `readTracks(r, n)`. -/
def readTracks (r : List Byte) (n : Nat) : Outcome (List Track) :=
  readTracksAux n r []

structure SMF where
  Header : Header
  Tracks : List Track
  deriving DecidableEq

/-- Go `Decode(r)`. -/
def Decode (r : List Byte) : Outcome SMF :=
  match readHeader r with
  | .error e => .error e
  | .panic => .panic
  | .outOfFuel => .outOfFuel
  | .ok (h, r1) =>
    match readTracks r1 h.NumTrack with
    | .error e => .error e
    | .panic => .panic
    | .outOfFuel => .outOfFuel
    | .ok tracks => .ok { Header := h, Tracks := tracks }

/-! ## tool.go -/

/-- The arrays `tstarts` and `tends` of `SwapTrack`, as a list of pairs: the
first track starts at `start`, and each next one where the previous ends. -/
def trackRanges : Nat → List Track → List (Nat × Nat)
  | _, [] => []
  | start, t :: ts =>
    (start, start + TrackHeaderLength + t.Header.Length) ::
      trackRanges (start + TrackHeaderLength + t.Header.Length) ts

/-- The writes `dst.Write(buf[tstarts[i]:tends[i]])`, in order, appended to
what was written before. -/
def writeRanges (buf : List Byte) : List (Nat × Nat) → List Byte → Outcome (List Byte)
  | [], out => .ok out
  | (s, e) :: rs, out =>
    match sliceRange buf s e with
    | none => .panic
    | some bytes => writeRanges buf rs (out ++ bytes)

/-- Go `SwapTrack(dst, src, a, b)` on the bytes `buf` read from `src`: when it
returns nil, the bytes written to `dst`. -/
def SwapTrack (buf : List Byte) (a b : Int) : Outcome (List Byte) :=
  match Decode buf with
  | .error e => .error e
  | .panic => .panic
  | .outOfFuel => .outOfFuel
  | .ok smf =>
    let h := smf.Header
    let tracks := smf.Tracks
    if (a ≤ 0 ∧ (h.NumTrack : Int) ≤ a) ∨ (b ≤ 0 ∧ (h.NumTrack : Int) ≤ b) then
      .error .invalidAB
    else if tracks.length = 0 then .panic
    else
      let ranges := trackRanges HeaderLength tracks
      if a < 0 ∨ (tracks.length : Int) ≤ a ∨ b < 0 ∨ (tracks.length : Int) ≤ b then .panic
      else
        let ra := ranges.getD a.toNat (0, 0)
        let rb := ranges.getD b.toNat (0, 0)
        let swapped := (ranges.set a.toNat rb).set b.toNat ra
        match sliceTo buf HeaderLength with
        | none => .panic
        | some hd => writeRanges buf swapped hd

/-! ## Spec-side definitions -/

/-- Spec side: the continuation bit (bit 7) of a byte. -/
def contBit (x : Byte) : Bool := x.val.testBit 7

/-- Spec side: the low seven bits of the bytes, concatenated most significant
first, on top of the value `v` read so far. -/
def vlqFold (v : Nat) (bs : List Byte) : Nat :=
  bs.foldl (fun acc x => acc * 128 + x.val % 128) v

/-- Spec side: the value of a variable-length quantity. -/
def vlqValue (bs : List Byte) : Nat := vlqFold 0 bs

/-- Spec side: the standard minimal variable-length encoding of `v` (the
repository has no encoder): seven bits per byte, most significant group first,
the continuation bit set on every byte but the last. -/
def encodeVLQ (v : Nat) : List Byte :=
  if v < 128 then [toByte v]
  else if v < 16384 then [toByte (128 + v / 128), toByte (v % 128)]
  else if v < 2097152 then
    [toByte (128 + v / 16384), toByte (128 + v / 128 % 128), toByte (v % 128)]
  else if v < 268435456 then
    [toByte (128 + v / 2097152), toByte (128 + v / 16384 % 128),
      toByte (128 + v / 128 % 128), toByte (v % 128)]
  else
    [toByte (128 + v / 268435456 % 128), toByte (128 + v / 2097152 % 128),
      toByte (128 + v / 16384 % 128), toByte (128 + v / 128 % 128), toByte (v % 128)]

/-- Spec side: the payload size of a channel message of kind `t`. -/
def channelPayload (t : Byte) : Nat :=
  if t.val = 0x80 ∨ t.val = 0x90 ∨ t.val = 0xA0 ∨ t.val = 0xB0 ∨ t.val = 0xE0 then 2 else 1

/-! ## Example inputs -/

/-- A file header: format 1, three tracks, division 480. -/
def exHeader : List Byte := [0x4D, 0x54, 0x68, 0x64, 0, 0, 0, 6, 0, 1, 0, 3, 0x01, 0xE0]

/-- A track chunk holding only an end-of-track event. -/
def exTrack0 : List Byte := [0x4D, 0x54, 0x72, 0x6B, 0, 0, 0, 4, 0x00, 0xFF, 0x2F, 0x00]

/-- A track chunk: a note-on, then end-of-track. -/
def exTrack1 : List Byte :=
  [0x4D, 0x54, 0x72, 0x6B, 0, 0, 0, 8, 0x00, 0x90, 0x3C, 0x40, 0x00, 0xFF, 0x2F, 0x00]

/-- A track chunk: a note-on, a running-status note-on, then end-of-track. -/
def exTrack2 : List Byte :=
  [0x4D, 0x54, 0x72, 0x6B, 0, 0, 0, 11, 0x00, 0x91, 0x3C, 0x40, 0x10, 0x3C, 0x00,
    0x00, 0xFF, 0x2F, 0x00]

/-- The three-track example file. -/
def exFile : List Byte := exHeader ++ exTrack0 ++ exTrack1 ++ exTrack2

/-- What `readTrack` returns on `exTrack1`. -/
def exTrack1Decoded : Track :=
  { Header := { ID := magicMTrk, Length := 8 }
    Events :=
      [{ Type_ := 0x90, Channel := 0, Delta := 0, Length := 4, Value := [0x3C, 0x40] },
       { Type_ := 0x2F, Channel := 0, Delta := 0, Length := 4, Value := [] }] }

/-- What `readTrack` returns on `exTrack2`. -/
def exTrack2Decoded : Track :=
  { Header := { ID := magicMTrk, Length := 11 }
    Events :=
      [{ Type_ := 0x90, Channel := 1, Delta := 0, Length := 4, Value := [0x3C, 0x40] },
       { Type_ := 0x90, Channel := 1, Delta := 16, Length := 3, Value := [0x3C, 0x00] },
       { Type_ := 0x2F, Channel := 0, Delta := 0, Length := 4, Value := [] }] }

/-- Spec side: `c` is exactly one track chunk, which decodes to `t`. -/
def ChunkOf (c : List Byte) (t : Track) : Prop := readTrack c = .ok (t, [])

/-- Exchange of the entries `a` and `b` of a list, as `SwapTrack` does on its
offset arrays. -/
def swapList {α : Type} (l : List α) (a b : Nat) (d : α) : List α :=
  (l.set a (l.getD b d)).set b (l.getD a d)

/-- Spec side: the declared length of track `j`. -/
def trackLength (tracks : List Track) (j : Nat) : Nat :=
  (tracks.map (fun t => t.Header.Length)).getD j 0

/-- Spec side: the offset of track `j` in the file, accumulated from byte 14
over the tracks before it (8-byte chunk header plus declared length each). -/
def chunkStart (tracks : List Track) (j : Nat) : Nat :=
  HeaderLength + ((tracks.take j).map (fun t => TrackHeaderLength + t.Header.Length)).sum

/-- Spec side: the byte range of track `j` in `buf`. -/
def chunk (buf : List Byte) (tracks : List Track) (j : Nat) : List Byte :=
  (buf.drop (chunkStart tracks j)).take (TrackHeaderLength + trackLength tracks j)

/-- Spec side: the transposition exchanging `a` and `b`. -/
def transposition (a b i : Nat) : Nat :=
  if i = a then b else if i = b then a else i

/-- Spec side: the header bytes followed by the chunks in transposed order. -/
def swapSpec (buf : List Byte) (tracks : List Track) (a b : Nat) : List Byte :=
  buf.take HeaderLength ++
    ((List.range tracks.length).map (fun i => chunk buf tracks (transposition a b i))).flatten

/-- What `readTrack` returns on `exTrack0`. -/
def exTrack0Decoded : Track :=
  { Header := { ID := magicMTrk, Length := 4 }
    Events := [{ Type_ := 0x2F, Channel := 0, Delta := 0, Length := 4, Value := [] }] }

/-- What `Decode` returns on `exFile`. -/
def exDecoded : SMF :=
  { Header := { ID := magicMThd, Size := 6, Format := 1, NumTrack := 3, Division := 480 }
    Tracks := [exTrack0Decoded, exTrack1Decoded, exTrack2Decoded] }

/-- Spec side: the payload size of a channel message with status byte `s`, by
the high nibble of `s`. -/
def statusPayload (s : Byte) : Nat :=
  if s.val / 16 = 0x8 ∨ s.val / 16 = 0x9 ∨ s.val / 16 = 0xA ∨ s.val / 16 = 0xB
      ∨ s.val / 16 = 0xE then 2
  else 1

/-- Spec side: the error kind "malformed header" (a missing or short header, or
a wrong magic): the two end-of-input errors that `binary.Read` passes on, and
the "not found 'MThd'" error. -/
def MalformedHeader (e : Err) : Prop :=
  e = .eof ∨ e = .unexpectedEOF ∨ e = .invalidHeader

/-- A header whose division field is 0x8000, followed by bytes that are not a
track chunk. -/
def exHeaderSMPTE : List Byte :=
  [0x4D, 0x54, 0x68, 0x64, 0, 0, 0, 6, 0, 1, 0, 1, 0x80, 0x00, 0xDE, 0xAD]

/-- Spec side: consecutive `readTrack` calls, the first on `r` and each next one
where the previous chunk ended, succeed with the tracks `ts` and leave `r2`. -/
inductive ReadsTracks : List Byte → List Track → List Byte → Prop where
  | nil (r : List Byte) : ReadsTracks r [] r
  | cons {r r1 r2 : List Byte} {t : Track} {ts : List Track} :
      readTrack r = .ok (t, r1) → ReadsTracks r1 ts r2 → ReadsTracks r (t :: ts) r2

/-- Spec side: parsing the events of `buf` one after the other, `prev` being
the event before, produces an end-of-track event that ends fewer than `room`
bytes into `buf`. -/
inductive ProducesEarlyEOT : List Byte → Option Event → Nat → Prop where
  | here {buf : List Byte} {prev : Option Event} {room : Nat} {e : Event} :
      parseEvent buf prev = .ok e → e.Type_.val = MTEOT → e.Length < room →
      ProducesEarlyEOT buf prev room
  | later {buf : List Byte} {prev : Option Event} {room : Nat} {e : Event} :
      parseEvent buf prev = .ok e → e.Length ≤ room →
      ProducesEarlyEOT (buf.drop e.Length) (some e) (room - e.Length) →
      ProducesEarlyEOT buf prev room

/-- A one-track file whose header chunk declares the size 7. -/
def exFileSize7 : List Byte :=
  [0x4D, 0x54, 0x68, 0x64, 0, 0, 0, 7, 0, 1, 0, 1, 0x01, 0xE0] ++ exTrack0

/-- A set-tempo meta event, as `parseEvent` returns it for
`00 FF 51 03 07 A1 20`. -/
def exTempo : Event :=
  { Type_ := 0x51, Channel := 0, Delta := 0, Length := 7, Value := [0x07, 0xA1, 0x20] }

/-! ## Bytes and bit operations -/

set_option maxRecDepth 100000 in
theorem byte_and_80 : ∀ x : Byte, (x.val &&& 0x80 ≠ 0) ↔ contBit x = true := by
  decide

theorem byte_and_7F (x : Byte) : x.val &&& 0x7F = x.val % 128 :=
  Nat.and_pow_two_sub_one_eq_mod x.val 7

set_option maxRecDepth 100000 in
theorem byte_lt_of_clear : ∀ x : Byte, contBit x = false → x.val < 128 := by
  decide

theorem lor_low (v y : Nat) (hy : y < 128) : (128 * v) ||| y = v * 128 + y := by
  have := Nat.mul_add_lt_is_or (i := 7) (b := y) (by simpa using hy) v
  simp at this
  omega

/-! ## variableLengthUint32 -/

theorem vlqLoop_cont (k i prod : Nat) (x : Byte) (xs : List Byte) (hx : contBit x = true) :
    vlqLoop (k + 1) i prod (x :: xs)
      = vlqLoop k (i + 1) (((prod ||| (x.val &&& 0x7F)) <<< 7) % 2 ^ 32) xs := by
  have h := (byte_and_80 x).mpr hx
  simp only [vlqLoop, if_pos h]

theorem vlqLoop_stop (k i prod : Nat) (x : Byte) (xs : List Byte) (hx : contBit x = false) :
    vlqLoop (k + 1) i prod (x :: xs) = .ok (prod ||| x.val, i + 1) := by
  have h : ¬ (x.val &&& 0x80 ≠ 0) := by
    rw [byte_and_80 x, hx]; simp
  simp only [vlqLoop, if_neg h]

/-- One continuation step on an accumulator `128 * v` that still fits. -/
theorem vlq_step (v : Nat) (x : Byte) (hv : v < 128 ^ 2) :
    (((128 * v) ||| (x.val &&& 0x7F)) <<< 7) % 2 ^ 32 = 128 * (v * 128 + x.val % 128) := by
  rw [byte_and_7F, lor_low v _ (Nat.mod_lt _ (by decide)), Nat.shiftLeft_eq]
  have : x.val % 128 < 128 := Nat.mod_lt _ (by decide)
  rw [Nat.mod_eq_of_lt] <;> omega

theorem vlqFold_lt (bs : List Byte) : ∀ (v n : Nat), v < 128 ^ n →
    vlqFold v bs < 128 ^ (n + bs.length) := by
  induction bs with
  | nil => intro v n h; simpa [vlqFold] using h
  | cons x xs ih =>
    intro v n h
    have hx : x.val % 128 < 128 := Nat.mod_lt _ (by decide)
    have h1 : v * 128 + x.val % 128 < 128 ^ (n + 1) := by
      rw [pow_succ]; nlinarith
    have := ih (v * 128 + x.val % 128) (n + 1) h1
    simpa [vlqFold, Nat.add_assoc, Nat.add_comm 1] using this

/-- The loop returns at the first byte whose continuation bit is clear. -/
theorem vlqLoop_ok : ∀ (k i v : Nat) (xs : List Byte) (j : Nat),
    i + k = 4 → v < 128 ^ i → j < k → j < xs.length →
    (∀ m x, m < j → xs[m]? = some x → contBit x = true) →
    (∀ x, xs[j]? = some x → contBit x = false) →
    vlqLoop k i (128 * v) xs = .ok (vlqFold v (xs.take (j + 1)), i + j + 1) := by
  intro k
  induction k with
  | zero => intro i v xs j _ _ hj; omega
  | succ k ih =>
    intro i v xs j hik hv hjk hjl hpre hat
    match xs, hjl, hpre, hat with
    | x :: xs, hjl, hpre, hat =>
      cases j with
      | zero =>
        have hx : contBit x = false := hat x (by simp)
        rw [vlqLoop_stop _ _ _ _ _ hx, lor_low v _ (byte_lt_of_clear x hx)]
        simp [vlqFold, Nat.mod_eq_of_lt (byte_lt_of_clear x hx)]
      | succ j =>
        have hx : contBit x = true := hpre 0 x (by omega) (by simp)
        have hi : i ≤ 2 := by omega
        have hv2 : v < 128 ^ 2 :=
          lt_of_lt_of_le hv (Nat.pow_le_pow_right (by decide) hi)
        rw [vlqLoop_cont _ _ _ _ _ hx, vlq_step v x hv2]
        have hx7 : x.val % 128 < 128 := Nat.mod_lt _ (by decide)
        have hv1 : v * 128 + x.val % 128 < 128 ^ (i + 1) := by
          rw [pow_succ]; nlinarith
        have := ih (i + 1) (v * 128 + x.val % 128) xs j (by omega) hv1 (by omega)
          (by simpa using hjl)
          (fun m y hm hy => hpre (m + 1) y (by omega) (by simpa using hy))
          (fun y hy => hat y (by simpa using hy))
        rw [this]
        simp [vlqFold, Nat.add_assoc, Nat.add_comm 1]

/-- The loop fails when none of the bytes it may look at ends the quantity. -/
theorem vlqLoop_err : ∀ (k i prod : Nat) (xs : List Byte),
    (∀ m x, m < k → xs[m]? = some x → contBit x = true) →
    vlqLoop k i prod xs = .error .invalidVariableLength := by
  intro k
  induction k with
  | zero => intro i prod xs _; simp [vlqLoop]
  | succ k ih =>
    intro i prod xs h
    cases xs with
    | nil => simp [vlqLoop]
    | cons x xs =>
      have hx : contBit x = true := h 0 x (by omega) (by simp)
      rw [vlqLoop_cont _ _ _ _ _ hx]
      exact ih _ _ xs (fun m y hm hy => h (m + 1) y (by omega) (by simpa using hy))

/-- C8: `variableLengthUint32 b` succeeds exactly when one of the first
`min 4 (len b)` bytes has its high bit clear; with `k` the index of the first
such byte it returns the count `k + 1` (between 1 and 4) and the low seven bits
of bytes `0..k` concatenated most significant first, a value below `2 ^ 28`;
otherwise it fails with the invalid-variable-length error. -/
theorem variableLengthUint32_spec (b : List Byte) :
    ((∃ r, variableLengthUint32 b = .ok r) ↔
        ∃ k x, k < 4 ∧ b[k]? = some x ∧ contBit x = false) ∧
    (∀ k x, k < 4 → b[k]? = some x → contBit x = false →
        (∀ m y, m < k → b[m]? = some y → contBit y = true) →
        variableLengthUint32 b = .ok (vlqValue (b.take (k + 1)), k + 1) ∧
        1 ≤ k + 1 ∧ k + 1 ≤ 4 ∧ vlqValue (b.take (k + 1)) < 2 ^ 28) ∧
    ((¬ ∃ k x, k < 4 ∧ b[k]? = some x ∧ contBit x = false) →
        variableLengthUint32 b = .error .invalidVariableLength) := by
  have hok : ∀ k x, k < 4 → b[k]? = some x → contBit x = false →
      (∀ m y, m < k → b[m]? = some y → contBit y = true) →
      variableLengthUint32 b = .ok (vlqValue (b.take (k + 1)), k + 1) ∧
      1 ≤ k + 1 ∧ k + 1 ≤ 4 ∧ vlqValue (b.take (k + 1)) < 2 ^ 28 := by
    intro k x hk hx hc hpre
    have hlen : k < b.length := by
      rcases List.getElem?_eq_some.mp hx with ⟨h, _⟩
      exact h
    refine ⟨?_, by omega, by omega, ?_⟩
    · have := vlqLoop_ok 4 0 0 b k (by omega) (by simp) hk hlen hpre
        (fun y hy => by rw [hx] at hy; cases hy; exact hc)
      simpa [variableLengthUint32, vlqValue] using this
    · have h1 := vlqFold_lt (b.take (k + 1)) 0 0 (by simp)
      have h2 : (b.take (k + 1)).length ≤ 4 := by
        rw [List.length_take]; omega
      have h3 : 128 ^ (0 + (b.take (k + 1)).length) ≤ 128 ^ 4 :=
        Nat.pow_le_pow_right (by decide) (by omega)
      have h4 : (128 : Nat) ^ 4 = 2 ^ 28 := by norm_num
      unfold vlqValue
      omega
  have herr : (¬ ∃ k x, k < 4 ∧ b[k]? = some x ∧ contBit x = false) →
      variableLengthUint32 b = .error .invalidVariableLength := by
    intro h
    apply vlqLoop_err
    intro m x hm hx
    by_contra hc
    exact h ⟨m, x, hm, hx, by simpa using hc⟩
  refine ⟨⟨?_, ?_⟩, hok, herr⟩
  · rintro ⟨r, hr⟩
    by_contra h
    rw [herr h] at hr
    cases hr
  · intro h
    have hex : ∃ k, ∃ x, k < 4 ∧ b[k]? = some x ∧ contBit x = false := h
    let k := Nat.find hex
    obtain ⟨x, hk, hx, hc⟩ := Nat.find_spec hex
    refine ⟨_, (hok k x hk hx hc ?_).1⟩
    intro m y hm hy
    by_contra hcy
    exact Nat.find_min hex hm ⟨y, by omega, hy, by simpa using hcy⟩

/-- C8 at a concrete input: `81 00` is the quantity 128 on two bytes. -/
theorem variableLengthUint32_spec_witness :
    variableLengthUint32 [0x81, 0x00, 0x7F] = .ok (128, 2) :=
  ((variableLengthUint32_spec [0x81, 0x00, 0x7F]).2.1 1 0x00 (by decide) (by decide)
    (by decide) (by
      intro m y hm hy
      have hm0 : m = 0 := by omega
      subst hm0
      simp at hy
      subst hy
      decide)).1

theorem contBit_toByte_hi (q : Nat) (h : q < 128) : contBit (toByte (128 + q)) = true := by
  simp only [contBit, toByte, Nat.testBit_to_div_mod, decide_eq_true_eq]
  omega

theorem contBit_toByte_lo (q : Nat) (h : q < 128) : contBit (toByte q) = false := by
  simp only [contBit, toByte, Nat.testBit_to_div_mod, decide_eq_false_iff_not]
  omega

theorem toByte_hi_mod (q : Nat) (h : q < 128) : (toByte (128 + q)).val % 128 = q := by
  simp only [toByte]; omega

theorem toByte_lo_mod (q : Nat) (h : q < 128) : (toByte q).val % 128 = q := by
  simp only [toByte]; omega

/-- Decoding a quantity laid out as continuation bytes and a final byte. -/
theorem variableLengthUint32_append (pre : List Byte) (x : Byte) (rest : List Byte)
    (hlen : pre.length < 4) (hpre : ∀ y ∈ pre, contBit y = true) (hx : contBit x = false) :
    variableLengthUint32 (pre ++ x :: rest)
      = .ok (vlqValue (pre ++ [x]), pre.length + 1) := by
  have := vlqLoop_ok 4 0 0 (pre ++ x :: rest) pre.length (by omega) (by simp) hlen
    (by simp)
    (fun m y hm hy => by
      rw [List.getElem?_append_left hm] at hy
      exact hpre y (List.getElem?_mem hy))
    (fun y hy => by
      rw [List.getElem?_append_right (le_refl _)] at hy
      simp at hy
      subst hy
      exact hx)
  have ht : (pre ++ x :: rest).take (pre.length + 1) = pre ++ [x] := by
    rw [show pre ++ x :: rest = (pre ++ [x]) ++ rest by simp]
    exact List.take_left' (by simp)
  rw [ht] at this
  simpa [variableLengthUint32, vlqValue] using this

/-- C9: for every value `v` below `2 ^ 28` and every `rest`, decoding the
standard minimal encoding of `v` followed by `rest` returns `v` and the number
of bytes of that encoding. -/
theorem vlq_roundtrip (v : Nat) (hv : v < 2 ^ 28) (rest : List Byte) :
    variableLengthUint32 (encodeVLQ v ++ rest) = .ok (v, (encodeVLQ v).length) := by
  unfold encodeVLQ
  split_ifs with h1 h2 h3 h4
  · have := variableLengthUint32_append [] (toByte v) rest (by simp) (by simp)
      (contBit_toByte_lo v h1)
    simpa [vlqValue, vlqFold, toByte_lo_mod v h1] using this
  · have q1 : v / 128 < 128 := by omega
    have q0 : v % 128 < 128 := by omega
    have := variableLengthUint32_append [toByte (128 + v / 128)] (toByte (v % 128)) rest
      (by simp) (by simp [contBit_toByte_hi _ q1]) (contBit_toByte_lo _ q0)
    simp only [vlqValue, vlqFold, List.foldl, List.cons_append, List.nil_append,
      toByte_hi_mod _ q1, toByte_lo_mod _ q0] at this
    rw [List.cons_append, List.cons_append, List.nil_append, this]
    simp; omega
  · have q2 : v / 16384 < 128 := by omega
    have q1 : v / 128 % 128 < 128 := by omega
    have q0 : v % 128 < 128 := by omega
    have := variableLengthUint32_append
      [toByte (128 + v / 16384), toByte (128 + v / 128 % 128)] (toByte (v % 128)) rest
      (by simp) (by simp [contBit_toByte_hi _ q2, contBit_toByte_hi _ q1])
      (contBit_toByte_lo _ q0)
    simp only [vlqValue, vlqFold, List.foldl, List.cons_append, List.nil_append,
      toByte_hi_mod _ q2, toByte_hi_mod _ q1, toByte_lo_mod _ q0] at this
    rw [List.cons_append, List.cons_append, List.cons_append, List.nil_append, this]
    simp; omega
  · have q3 : v / 2097152 < 128 := by omega
    have q2 : v / 16384 % 128 < 128 := by omega
    have q1 : v / 128 % 128 < 128 := by omega
    have q0 : v % 128 < 128 := by omega
    have := variableLengthUint32_append
      [toByte (128 + v / 2097152), toByte (128 + v / 16384 % 128),
        toByte (128 + v / 128 % 128)] (toByte (v % 128)) rest
      (by simp)
      (by simp [contBit_toByte_hi _ q3, contBit_toByte_hi _ q2, contBit_toByte_hi _ q1])
      (contBit_toByte_lo _ q0)
    simp only [vlqValue, vlqFold, List.foldl, List.cons_append, List.nil_append,
      toByte_hi_mod _ q3, toByte_hi_mod _ q2, toByte_hi_mod _ q1, toByte_lo_mod _ q0] at this
    rw [List.cons_append, List.cons_append, List.cons_append, List.cons_append,
      List.nil_append, this]
    simp; omega
  · omega

/-- C9 at a concrete input: the value 0x3FFF on two bytes. -/
theorem vlq_roundtrip_witness :
    variableLengthUint32 (encodeVLQ 16383 ++ [0x90]) = .ok (16383, 2) :=
  vlq_roundtrip 16383 (by decide) [0x90]

theorem sliceFrom_of_le {b : List Byte} {n : Nat} (h : n ≤ b.length) :
    sliceFrom b n = some (b.drop n) := by
  simp [sliceFrom, h]

theorem sliceTo_of_le {b : List Byte} {n : Nat} (h : n ≤ b.length) :
    sliceTo b n = some (b.take n) := by
  simp [sliceTo, h]

/-- A successful read does not depend on what follows the bytes it looked at. -/
theorem vlqLoop_append : ∀ (k i prod : Nat) (xs rest : List Byte) (r : Nat × Nat),
    vlqLoop k i prod xs = .ok r → vlqLoop k i prod (xs ++ rest) = .ok r := by
  intro k
  induction k with
  | zero => intro i prod xs rest r h; simp [vlqLoop] at h
  | succ k ih =>
    intro i prod xs rest r h
    cases xs with
    | nil => simp [vlqLoop] at h
    | cons x xs =>
      cases hx : contBit x with
      | true =>
        rw [vlqLoop_cont _ _ _ _ _ hx] at h
        rw [List.cons_append, vlqLoop_cont _ _ _ _ _ hx]
        exact ih _ _ _ _ _ h
      | false =>
        rw [vlqLoop_stop _ _ _ _ _ hx] at h
        rw [List.cons_append, vlqLoop_stop _ _ _ _ _ hx]
        exact h

theorem variableLengthUint32_append_rest (dt rest : List Byte) (r : Nat × Nat)
    (h : variableLengthUint32 dt = .ok r) : variableLengthUint32 (dt ++ rest) = .ok r :=
  vlqLoop_append 4 0 0 dt rest r h

set_option maxRecDepth 100000 in
theorem status_rebuild : ∀ s : Byte,
    toByte ((toByte (s.val &&& 0xF0)).val ||| (toByte (s.val &&& 0x0F)).val) = s := by
  decide

theorem byte_and_80_zero (x : Byte) (hx : contBit x = false) : x.val &&& 0x80 = 0 := by
  by_contra h
  rw [(byte_and_80 x).mp h] at hx
  cases hx

/-- The channel branch of `parseEventBody`. -/
theorem parseEventBody_channel (buf : List Byte) (delta : Nat) (s : Byte) (b : List Byte)
    (h1 : s.val ≠ 0xFF) (h2 : s.val ≠ 0xF0) (h3 : s.val ≠ 0xF7)
    (hlen : channelPayload (toByte (s.val &&& 0xF0)) ≤ b.length) :
    parseEventBody buf delta s b =
      .ok { Type_ := toByte (s.val &&& 0xF0), Channel := toByte (s.val &&& 0x0F),
            Delta := delta,
            Length := buf.length
              - (b.drop (channelPayload (toByte (s.val &&& 0xF0)))).length,
            Value := b.take (channelPayload (toByte (s.val &&& 0xF0))) } := by
  have hk : (if (toByte (s.val &&& 0xF0)).val = 0x80 ∨ (toByte (s.val &&& 0xF0)).val = 0x90
      ∨ (toByte (s.val &&& 0xF0)).val = 0xA0 ∨ (toByte (s.val &&& 0xF0)).val = 0xB0
      ∨ (toByte (s.val &&& 0xF0)).val = 0xE0 then 2
      else if (toByte (s.val &&& 0xF0)).val = 0xC0 ∨ (toByte (s.val &&& 0xF0)).val = 0xD0
        then 1 else 1) = channelPayload (toByte (s.val &&& 0xF0)) := by
    unfold channelPayload
    split_ifs <;> rfl
  unfold parseEventBody
  rw [if_neg h1, if_neg (by simp [MTSysEx, MTSpecialSysEx, h2, h3])]
  simp only [hk, sliceTo_of_le hlen, sliceFrom_of_le hlen]

/-- C10: for a channel event `p` (its Type and Channel are those of a status
byte `s` in 0x80..0xEF) and a buffer made of a valid delta-time followed by data
bytes whose first byte has its high bit clear and that hold the payload,
`parseEvent` returns an event with the Type and Channel of `p`, whose Value
starts at that first data byte and whose Length counts the delta-time and the
payload only, no status byte. -/
theorem parseEvent_running_channel (p : Event) (s : Byte) (dt : List Byte) (delta : Nat)
    (x : Byte) (data : List Byte)
    (hs : 0x80 ≤ s.val ∧ s.val ≤ 0xEF)
    (hT : p.Type_ = toByte (s.val &&& 0xF0)) (hC : p.Channel = toByte (s.val &&& 0x0F))
    (hdt : variableLengthUint32 dt = .ok (delta, dt.length))
    (hx : contBit x = false)
    (hlen : channelPayload p.Type_ ≤ (x :: data).length) :
    parseEvent (dt ++ x :: data) (some p) =
      .ok { Type_ := p.Type_, Channel := p.Channel, Delta := delta,
            Length := dt.length + channelPayload p.Type_,
            Value := (x :: data).take (channelPayload p.Type_) } := by
  have hst : toByte (p.Type_.val ||| p.Channel.val) = s := by
    rw [hT, hC]; exact status_rebuild s
  unfold parseEvent
  rw [variableLengthUint32_append_rest dt (x :: data) _ hdt]
  simp only [sliceFrom_of_le (show dt.length ≤ (dt ++ x :: data).length by simp),
    List.drop_left, byte_and_80_zero x hx, if_true, hst]
  rw [hT] at hlen
  rw [parseEventBody_channel _ _ s _ (by omega) (by omega) (by omega) hlen, ← hT, ← hC]
  congr 2
  simp only [List.length_append, List.length_drop]
  rw [hT]
  omega

/-- C10 at a concrete input: a note-on followed by a running-status event. -/
theorem parseEvent_running_channel_witness :
    parseEvent [0x10, 0x3C, 0x00]
        (some { Type_ := 0x90, Channel := 3, Delta := 0, Length := 4, Value := [0x3C, 0x40] })
      = .ok { Type_ := 0x90, Channel := 3, Delta := 16, Length := 3, Value := [0x3C, 0x00] } :=
  parseEvent_running_channel
    { Type_ := 0x90, Channel := 3, Delta := 0, Length := 4, Value := [0x3C, 0x40] }
    0x93 [0x10] 16 0x3C [0x00] (by decide) (by decide) (by decide) (by decide) (by decide)
    (by decide)

theorem sliceFrom_some {b c : List Byte} {n : Nat} (h : sliceFrom b n = some c) :
    n ≤ b.length ∧ c = b.drop n := by
  unfold sliceFrom at h
  split_ifs at h with hn
  exact ⟨hn, by cases h; rfl⟩

/-- What a successful run of the event loop returns: the events read are added
after those already there, their lengths lead from `ePos` exactly to `eEnd`,
and an end-of-track event can only be the last one. -/
theorem eventLoop_ok : ∀ (fuel : Nat) (buf : List Byte) (prev : Option Event)
    (ePos eEnd : Nat) (events evs : List Event),
    eventLoop fuel buf prev ePos eEnd events = .ok evs → ePos ≤ eEnd →
    ∃ new, evs = events ++ new ∧ ePos + (new.map Event.Length).sum = eEnd ∧
      (ePos < eEnd → new ≠ []) ∧
      (∀ i e, new[i]? = some e → e.Type_.val = MTEOT → i + 1 = new.length) := by
  intro fuel
  induction fuel with
  | zero => intro buf prev ePos eEnd events evs h; simp [eventLoop] at h
  | succ fuel ih =>
    intro buf prev ePos eEnd events evs h hle
    unfold eventLoop at h
    split_ifs at h with hlt
    · split at h
      · cases h
      · cases h
      · cases h
      · rename_i e _
        split at h
        · cases h
        · rename_i buf1 _
          split_ifs at h with hbad
          have hbad1 : ¬ (ePos + e.Length > eEnd) := fun hc => hbad (Or.inl hc)
          have hbad2 : e.Type_.val = MTEOT → ePos + e.Length = eEnd := by
            intro ht
            by_contra hne
            exact hbad (Or.inr ⟨ht, hne⟩)
          obtain ⟨new, hnew, hsum, _, heot⟩ := ih _ _ _ _ _ _ h (by omega)
          refine ⟨e :: new, by simp [hnew], by simp; omega, fun _ => by simp, ?_⟩
          intro i x hx ht
          cases i with
          | zero =>
            simp at hx
            subst hx
            have hend := hbad2 ht
            have : (new.map Event.Length).sum = 0 := by omega
            cases fuel with
            | zero => simp [eventLoop] at h
            | succ fuel =>
              unfold eventLoop at h
              rw [if_neg (by omega)] at h
              cases h
              have hnil : new = [] := by simpa using hnew
              simp [hnil]
          | succ i =>
            have := heot i x (by simpa using hx) ht
            simp; omega
    · cases h
      exact ⟨[], by simp, by simp; omega, fun hc => absurd hc hlt, by simp⟩

/-- The shape of a successful `readTrack`. -/
theorem readTrack_ok {r : List Byte} {t : Track} {rest : List Byte}
    (h : readTrack r = .ok (t, rest)) :
    8 ≤ r.length ∧ t.Header.ID = magicMTrk ∧ t.Header.ID = r.take 4 ∧
    t.Header.Length = bigEndian ((r.drop 4).take 4) ∧
    t.Header.Length ≤ (r.drop 8).length ∧ rest = (r.drop 8).drop t.Header.Length ∧
    eventLoop (t.Header.Length + 1) ((r.drop 8).take t.Header.Length) none 0
      t.Header.Length [] = .ok t.Events := by
  unfold readTrack at h
  dsimp only at h
  split_ifs at h with h0 h8 hid hl
  split at h
  · cases h
  · cases h
  · cases h
  · rename_i evs hev
    cases h
    simp only [ne_eq, not_not] at hid
    exact ⟨by omega, hid, rfl, rfl, by simpa using hl, rfl, hev⟩

/-- C5: for every track that `readTrack` returns, the Length fields of its
events add up to the declared chunk length `Header.Length`. -/
theorem readTrack_length_sum (r : List Byte) (t : Track) (rest : List Byte)
    (h : readTrack r = .ok (t, rest)) :
    (t.Events.map Event.Length).sum = t.Header.Length := by
  obtain ⟨_, _, _, _, _, _, hev⟩ := readTrack_ok h
  obtain ⟨new, hnew, hsum, _, _⟩ := eventLoop_ok _ _ _ _ _ _ _ hev (Nat.zero_le _)
  simp at hnew
  rw [hnew]
  omega

/-- C5 at a concrete input: a note-on and an end-of-track in a chunk of length 8. -/
theorem readTrack_length_sum_witness :
    readTrack exTrack1 = .ok (exTrack1Decoded, []) ∧
      (exTrack1Decoded.Events.map Event.Length).sum = 8 :=
  ⟨by decide, readTrack_length_sum exTrack1 exTrack1Decoded [] (by decide)⟩

/-- C6 as stated fails: a chunk of declared length 0 is read successfully with
no event at all, and a chunk holding one note-on is read successfully although
its final event is not an end-of-track event. -/
theorem readTrack_final_eot_counterexample :
    readTrack (magicMTrk ++ [0, 0, 0, 0])
        = .ok ({ Header := { ID := magicMTrk, Length := 0 }, Events := [] }, []) ∧
    readTrack (magicMTrk ++ [0, 0, 0, 4, 0x00, 0x90, 0x3C, 0x40])
        = .ok ({ Header := { ID := magicMTrk, Length := 4 },
                 Events := [{ Type_ := 0x90, Channel := 0, Delta := 0, Length := 4,
                              Value := [0x3C, 0x40] }] }, []) := by
  constructor <;> decide

/-- C6 amended: for every track that `readTrack` returns, the events end
exactly at the chunk boundary, the sequence is non-empty when the declared
length is positive, an end-of-track event (type 0x2F) occurs only as the
final event, and the sequence is empty when the declared length is 0. -/
theorem readTrack_events_end (r : List Byte) (t : Track) (rest : List Byte)
    (h : readTrack r = .ok (t, rest)) :
    (t.Events.map Event.Length).sum = t.Header.Length ∧
    (0 < t.Header.Length → t.Events ≠ []) ∧
    (∀ i e, t.Events[i]? = some e → e.Type_.val = MTEOT → i + 1 = t.Events.length) ∧
    (t.Header.Length = 0 → t.Events = []) := by
  obtain ⟨_, _, _, _, _, _, hev⟩ := readTrack_ok h
  have hzero : t.Header.Length = 0 → t.Events = [] := by
    intro hL
    rw [hL] at hev
    unfold eventLoop at hev
    rw [if_neg (Nat.lt_irrefl 0)] at hev
    exact (Outcome.ok.inj hev).symm
  obtain ⟨new, hnew, hsum, hne, heot⟩ := eventLoop_ok _ _ _ _ _ _ _ hev (Nat.zero_le _)
  simp at hnew
  subst hnew
  exact ⟨by omega, hne, heot, hzero⟩

/-- C6 amended, at a concrete input. -/
theorem readTrack_events_end_witness :
    readTrack exTrack2 = .ok (exTrack2Decoded, []) ∧
      (exTrack2Decoded.Events.map Event.Length).sum = exTrack2Decoded.Header.Length :=
  ⟨by decide, (readTrack_events_end exTrack2 exTrack2Decoded [] (by decide)).1⟩

/-- C7: on a chunk that declares length 3 and holds `00 90 3C`, a note-on cut
short by the declared length, `readTrack` does not return the
"unexpected end of track" error: the slice `b[:2]` in `parseEvent` panics. -/
theorem readTrack_cut_event_panics :
    readTrack (magicMTrk ++ [0, 0, 0, 3, 0x00, 0x90, 0x3C]) = .panic := by
  decide

/-- `readTrack` on a reader that starts with an 8-byte header `hd` declaring
the length of `body`. -/
theorem readTrack_chunk (hd body rest : List Byte) (h8 : hd.length = 8)
    (hL : body.length = bigEndian ((hd.drop 4).take 4)) :
    readTrack (hd ++ body ++ rest) =
      if hd.take 4 ≠ magicMTrk then .error .invalidTrackHeader
      else
        match eventLoop (body.length + 1) body none 0 body.length [] with
        | .error e => .error e
        | .panic => .panic
        | .outOfFuel => .outOfFuel
        | .ok events =>
          .ok ({ Header := { ID := hd.take 4, Length := body.length }, Events := events }, rest) := by
  have e1 : (hd ++ body ++ rest).take 4 = hd.take 4 := by
    rw [List.append_assoc, List.take_append_of_le_length (by omega)]
  have e2 : ((hd ++ body ++ rest).drop 4).take 4 = (hd.drop 4).take 4 := by
    rw [List.append_assoc, List.drop_append_of_le_length (by omega),
      List.take_append_of_le_length (by simp; omega)]
  have e3 : (hd ++ body ++ rest).drop 8 = body ++ rest := by
    rw [List.append_assoc]; exact List.drop_left' h8
  have hlen : (hd ++ body ++ rest).length = 8 + body.length + rest.length := by
    simp [h8]; omega
  unfold readTrack
  dsimp only
  rw [if_neg (by omega), if_neg (by omega), e1, e2, e3, ← hL]
  split_ifs with hid hlt
  · rfl
  · simp at hlt
  · rw [List.take_left, List.drop_left]

theorem readTrack_split {r : List Byte} {t : Track} {rest : List Byte}
    (h : readTrack r = .ok (t, rest)) :
    ∃ hd body, r = hd ++ body ++ rest ∧ hd.length = 8 ∧
      body.length = bigEndian ((hd.drop 4).take 4) ∧ body.length = t.Header.Length := by
  obtain ⟨h8, _, _, hL, hle, hrest, _⟩ := readTrack_ok h
  refine ⟨r.take 8, (r.drop 8).take t.Header.Length, ?_, ?_, ?_, ?_⟩
  · rw [hrest, List.append_assoc, List.take_append_drop, List.take_append_drop]
  · simp; omega
  · rw [List.length_take, Nat.min_eq_left hle, hL]
    congr 1
    rw [List.drop_take, List.take_take]
    simp
  · rw [List.length_take, Nat.min_eq_left hle]

/-- A successful `readTrack` reads one chunk, whatever follows it. -/
theorem readTrack_chunkOf {r : List Byte} {t : Track} {rest : List Byte}
    (h : readTrack r = .ok (t, rest)) :
    ∃ c, r = c ++ rest ∧ ChunkOf c t ∧ c.length = 8 + t.Header.Length := by
  obtain ⟨hd, body, hr, h8, hL, hLt⟩ := readTrack_split h
  refine ⟨hd ++ body, hr, ?_, by simp; omega⟩
  rw [hr, readTrack_chunk hd body rest h8 hL] at h
  have := readTrack_chunk hd body [] h8 hL
  rw [List.append_nil] at this
  unfold ChunkOf
  rw [this]
  split_ifs at h ⊢ with hid
  cases hev : eventLoop (body.length + 1) body none 0 body.length [] with
  | error e => rw [hev] at h; cases h
  | panic => rw [hev] at h; cases h
  | outOfFuel => rw [hev] at h; cases h
  | ok evs =>
    rw [hev] at h
    cases h
    rfl

theorem ChunkOf.length {c : List Byte} {t : Track} (h : ChunkOf c t) :
    c.length = 8 + t.Header.Length := by
  obtain ⟨c1, hc, _, hl⟩ := readTrack_chunkOf h
  rw [List.append_nil] at hc
  rw [hc]; exact hl

theorem ChunkOf.append {c : List Byte} {t : Track} (h : ChunkOf c t) (rest : List Byte) :
    readTrack (c ++ rest) = .ok (t, rest) := by
  obtain ⟨hd, body, hr, h8, hL, hLt⟩ := readTrack_split h
  rw [List.append_nil] at hr
  unfold ChunkOf at h
  rw [hr] at h ⊢
  have h1 := readTrack_chunk hd body [] h8 hL
  rw [List.append_nil] at h1
  rw [h1] at h
  rw [readTrack_chunk hd body rest h8 hL]
  split_ifs at h ⊢ with hid
  cases hev : eventLoop (body.length + 1) body none 0 body.length [] with
  | error e => rw [hev] at h; cases h
  | panic => rw [hev] at h; cases h
  | outOfFuel => rw [hev] at h; cases h
  | ok evs =>
    rw [hev] at h
    cases h
    rfl

/-- What a successful `readTracksAux` read: `n` chunks, one after the other. -/
theorem readTracksAux_ok : ∀ (n : Nat) (r : List Byte) (acc ts : List Track),
    readTracksAux n r acc = .ok ts →
    ∃ cs new rest, r = cs.flatten ++ rest ∧ ts = acc ++ new ∧
      List.Forall₂ ChunkOf cs new ∧ cs.length = n := by
  intro n
  induction n with
  | zero =>
    intro r acc ts h
    simp only [readTracksAux] at h
    cases h
    exact ⟨[], [], r, by simp, by simp, List.Forall₂.nil, rfl⟩
  | succ n ih =>
    intro r acc ts h
    unfold readTracksAux at h
    cases hr : readTrack r with
    | error e => rw [hr] at h; cases h
    | panic => rw [hr] at h; cases h
    | outOfFuel => rw [hr] at h; cases h
    | ok p =>
      obtain ⟨t, r1⟩ := p
      rw [hr] at h
      obtain ⟨cs, new, rest, hr1, hts, hf, hn⟩ := ih _ _ _ h
      obtain ⟨c, hc, hct, _⟩ := readTrack_chunkOf hr
      refine ⟨c :: cs, t :: new, rest, ?_, ?_, List.Forall₂.cons hct hf, by simp [hn]⟩
      · rw [hc, hr1]; simp
      · rw [hts]; simp

/-- Chunks laid one after the other are read in order. -/
theorem readTracksAux_chunks : ∀ (cs : List (List Byte)) (new : List Track),
    List.Forall₂ ChunkOf cs new → ∀ (rest : List Byte) (acc : List Track),
    readTracksAux cs.length (cs.flatten ++ rest) acc = .ok (acc ++ new) := by
  intro cs new hf
  induction hf with
  | nil => intro rest acc; simp [readTracksAux]
  | cons hct _ ih =>
    intro rest acc
    rename_i c t cs new
    simp only [List.length_cons, List.flatten_cons, List.append_assoc]
    unfold readTracksAux
    rw [hct.append]
    simp only
    rw [ih]
    simp

theorem readHeader_ok {r : List Byte} {h : Header} {r1 : List Byte}
    (hh : readHeader r = .ok (h, r1)) :
    14 ≤ r.length ∧ r1 = r.drop 14 ∧
      ∀ r2, readHeader (r.take 14 ++ r2) = .ok (h, r2) := by
  unfold readHeader at hh
  dsimp only at hh
  split_ifs at hh with h0 h14 hid hdiv
  cases hh
  have hl : 14 ≤ r.length := by omega
  refine ⟨hl, rfl, ?_⟩
  intro r2
  have hlen : (r.take 14 ++ r2).length = 14 + r2.length := by
    simp [Nat.min_eq_left hl]
  have t4 : (r.take 14 ++ r2).take 4 = r.take 4 := by
    rw [List.take_append_of_le_length (by simp; omega), List.take_take]; simp
  have d (k m : Nat) (hk : k + m ≤ 14) :
      ((r.take 14 ++ r2).drop k).take m = (r.drop k).take m := by
    rw [List.drop_append_of_le_length (by simp; omega),
      List.take_append_of_le_length (by simp; omega), List.drop_take, List.take_take]
    congr 1
    omega
  have d14 : (r.take 14 ++ r2).drop 14 = r2 := List.drop_left' (by simp; omega)
  unfold readHeader
  dsimp only
  rw [if_neg (by omega), if_neg (by omega), t4, d 4 4 (by omega), d 8 2 (by omega),
    d 10 2 (by omega), d 12 2 (by omega), d14, if_neg hid, if_neg hdiv]

/-- What `Decode` accepts: a 14-byte header, then `NumTrack` chunks, then
anything. -/
theorem Decode_ok {buf : List Byte} {smf : SMF} (h : Decode buf = .ok smf) :
    ∃ cs rest, buf = buf.take 14 ++ cs.flatten ++ rest ∧ 14 ≤ buf.length ∧
      List.Forall₂ ChunkOf cs smf.Tracks ∧ cs.length = smf.Header.NumTrack ∧
      ∀ r2, readHeader (buf.take 14 ++ r2) = .ok (smf.Header, r2) := by
  unfold Decode at h
  cases hh : readHeader buf with
  | error e => rw [hh] at h; cases h
  | panic => rw [hh] at h; cases h
  | outOfFuel => rw [hh] at h; cases h
  | ok p =>
    obtain ⟨hd, r1⟩ := p
    rw [hh] at h
    dsimp only at h
    cases ht : readTracks r1 hd.NumTrack with
    | error e => rw [ht] at h; cases h
    | panic => rw [ht] at h; cases h
    | outOfFuel => rw [ht] at h; cases h
    | ok ts =>
      rw [ht] at h
      cases h
      obtain ⟨h14, hr1, hrd⟩ := readHeader_ok hh
      obtain ⟨cs, new, rest, hr, hts, hf, hn⟩ := readTracksAux_ok _ _ _ _ ht
      simp only [List.nil_append] at hts
      subst hts
      refine ⟨cs, rest, ?_, h14, hf, hn, hrd⟩
      rw [List.append_assoc, ← hr, hr1, List.take_append_drop]

/-- Decoding a header followed by chunks. -/
theorem Decode_chunks {hd14 : List Byte} {h : Header} (hh : ∀ r2, readHeader (hd14 ++ r2) = .ok (h, r2))
    {cs : List (List Byte)} {ts : List Track} (hf : List.Forall₂ ChunkOf cs ts)
    (hn : cs.length = h.NumTrack) (rest : List Byte) :
    Decode (hd14 ++ cs.flatten ++ rest) = .ok { Header := h, Tracks := ts } := by
  unfold Decode
  rw [List.append_assoc, hh]
  dsimp only
  unfold readTracks
  rw [← hn, readTracksAux_chunks cs ts hf]
  simp

theorem map_swapList {α β : Type} (f : α → β) (l : List α) (a b : Nat) (d : α) :
    (swapList l a b d).map f = swapList (l.map f) a b (f d) := by
  simp only [swapList, List.map_set, List.getD_map]

theorem getD_map_some {α : Type} (l : List α) (i : Nat) (d : Option α) (d1 : α)
    (hi : i < l.length) : (l.map some).getD i d = some (l.getD i d1) := by
  simp [List.getD_eq_getElem?_getD, List.getElem?_eq_getElem hi]

/-- The offset pairs of `SwapTrack` cut the chunks out of the buffer. -/
theorem trackRanges_slices : ∀ (cs : List (List Byte)) (ts : List Track),
    List.Forall₂ ChunkOf cs ts → ∀ (pre rest : List Byte),
    (trackRanges pre.length ts).map (fun p => sliceRange (pre ++ cs.flatten ++ rest) p.1 p.2)
      = cs.map some := by
  intro cs ts hf
  induction hf with
  | nil => intro pre rest; simp [trackRanges]
  | @cons c t cs ts hct _ ih =>
    intro pre rest
    have hl := hct.length
    simp only [trackRanges, List.map_cons, List.flatten_cons, TrackHeaderLength]
    have ih1 := ih (pre ++ c) rest
    simp only [List.length_append, List.append_assoc, hl] at ih1
    simp only [List.append_assoc]
    rw [show pre.length + 8 + t.Header.Length = pre.length + (8 + t.Header.Length) by omega,
      ih1]
    congr 1
    unfold sliceRange
    rw [if_pos (by simp; omega), List.drop_left]
    congr 1
    rw [show pre.length + (8 + t.Header.Length) - pre.length = c.length by omega]
    exact List.take_left _ _

theorem writeRanges_ok (buf : List Byte) : ∀ (rs : List (Nat × Nat)) (xs : List (List Byte))
    (out : List Byte),
    rs.map (fun p => sliceRange buf p.1 p.2) = xs.map some →
    writeRanges buf rs out = .ok (out ++ xs.flatten) := by
  intro rs
  induction rs with
  | nil =>
    intro xs out h
    cases xs with
    | nil => simp [writeRanges]
    | cons x xs => simp at h
  | cons p rs ih =>
    intro xs out h
    obtain ⟨s, e⟩ := p
    cases xs with
    | nil => simp at h
    | cons x xs =>
      simp only [List.map_cons, List.cons.injEq] at h
      unfold writeRanges
      rw [h.1]
      dsimp only
      rw [ih xs _ h.2]
      simp

/-- `SwapTrack` on a file made of a header, chunks and trailing bytes. -/
theorem SwapTrack_chunks {buf : List Byte} {smf : SMF} (hdec : Decode buf = .ok smf)
    {cs : List (List Byte)} {rest : List Byte}
    (hbuf : buf = buf.take 14 ++ cs.flatten ++ rest) (h14 : 14 ≤ buf.length)
    (hf : List.Forall₂ ChunkOf cs smf.Tracks) (hn : cs.length = smf.Header.NumTrack)
    (a b : Nat) (ha : a < cs.length) (hb : b < cs.length) :
    SwapTrack buf a b = .ok (buf.take 14 ++ (swapList cs a b []).flatten) := by
  have hlen : smf.Tracks.length = cs.length := hf.length_eq.symm
  have hsl := trackRanges_slices cs smf.Tracks hf (buf.take 14) rest
  rw [← hbuf] at hsl
  have h14l : (buf.take 14).length = 14 := by simp; omega
  rw [h14l] at hsl
  unfold SwapTrack
  rw [hdec]
  dsimp only
  rw [if_neg (by rw [← hn]; omega), if_neg (by omega), if_neg (by rw [hlen]; omega)]
  simp only [HeaderLength, sliceTo_of_le h14, Int.toNat_ofNat]
  apply writeRanges_ok
  have := map_swapList (fun p : Nat × Nat => sliceRange buf p.1 p.2)
    (trackRanges 14 smf.Tracks) a b (0, 0)
  unfold swapList at this
  rw [this, hsl, map_swapList]
  unfold swapList
  rw [getD_map_some cs a _ [] ha, getD_map_some cs b _ [] hb,
    getD_map_some cs a (some []) [] ha, getD_map_some cs b (some []) [] hb]

theorem transposition_lt {a b i n : Nat} (ha : a < n) (hb : b < n) (hi : i < n) :
    transposition a b i < n := by
  unfold transposition
  split_ifs <;> assumption

theorem swapList_eq_map {α : Type} (l : List α) (a b : Nat) (d : α)
    (ha : a < l.length) (hb : b < l.length) :
    swapList l a b d = (List.range l.length).map (fun i => l.getD (transposition a b i) d) := by
  apply List.ext_getElem
  · simp [swapList]
  · intro i h1 h2
    have hi : i < l.length := by simpa [swapList] using h1
    simp only [swapList, List.getElem_set, List.getElem_map, List.getElem_range,
      transposition, List.getD_eq_getElem _ _ ha, List.getD_eq_getElem _ _ hb]
    by_cases hib : b = i
    · subst hib
      by_cases hia : b = a
      · subst hia; simp [List.getElem?_eq_getElem hb]
      · simp [hia, List.getElem?_eq_getElem ha]
    · by_cases hia : a = i
      · subst hia; simp [hib, List.getElem?_eq_getElem hb]
      · have h1 : ¬ i = a := fun h => hia h.symm
        have h2 : ¬ i = b := fun h => hib h.symm
        simp [hib, hia, h1, h2, List.getElem?_eq_getElem hi]

/-- The spec-side byte range of track `j` is the `j`-th chunk. -/
theorem chunk_at : ∀ (cs : List (List Byte)) (ts : List Track),
    List.Forall₂ ChunkOf cs ts → ∀ (pre rest : List Byte) (j : Nat), j < cs.length →
    ((pre ++ cs.flatten ++ rest).drop
        (pre.length + ((ts.take j).map (fun t => TrackHeaderLength + t.Header.Length)).sum)).take
        (TrackHeaderLength + trackLength ts j) = cs.getD j [] := by
  intro cs ts hf
  induction hf with
  | nil => intro pre rest j hj; simp at hj
  | @cons c t cs ts hct _ ih =>
    intro pre rest j hj
    have hl := hct.length
    cases j with
    | zero =>
      simp only [List.take_zero, List.map_nil, List.sum_nil, Nat.add_zero, trackLength,
        List.map_cons, List.getD_cons_zero, List.flatten_cons, TrackHeaderLength,
        List.append_assoc, List.drop_left]
      rw [← hl]
      exact List.take_left _ _
    | succ j =>
      have := ih (pre ++ c) rest j (by simpa using hj)
      simp only [List.length_append, List.append_assoc, hl, TrackHeaderLength] at this
      simp only [List.take_succ_cons, List.map_cons, List.sum_cons, trackLength,
        List.getD_cons_succ, List.flatten_cons, TrackHeaderLength, List.append_assoc]
      simp only [trackLength] at this
      rw [← this]
      congr 2
      omega

/-- C2: for every `buf` that `Decode` accepts and all track indices `a`, `b`
below the number of tracks, `SwapTrack` writes `buf[0:14]` followed by the byte
ranges of the tracks (8-byte chunk header plus declared length, offsets
accumulated from byte 14) taken in the order given by the transposition of `a`
and `b`. -/
theorem SwapTrack_spec (buf : List Byte) (smf : SMF) (a b : Nat)
    (hdec : Decode buf = .ok smf)
    (ha : a < smf.Tracks.length) (hb : b < smf.Tracks.length) :
    SwapTrack buf a b = .ok (swapSpec buf smf.Tracks a b) := by
  obtain ⟨cs, rest, hbuf, h14, hf, hn, _⟩ := Decode_ok hdec
  have hlen : smf.Tracks.length = cs.length := hf.length_eq.symm
  rw [hlen] at ha hb
  rw [SwapTrack_chunks hdec hbuf h14 hf hn a b ha hb, swapList_eq_map cs a b [] ha hb]
  unfold swapSpec
  rw [hlen]
  simp only [HeaderLength]
  congr 3
  apply List.map_congr_left
  intro i hi
  have hi1 : i < cs.length := List.mem_range.mp hi
  have hlt := transposition_lt ha hb hi1
  have h14l : (buf.take 14).length = 14 := by simp; omega
  have := chunk_at cs smf.Tracks hf (buf.take 14) rest _ hlt
  rw [← hbuf, h14l] at this
  rw [← this]
  rfl

/-- C2 at a concrete input: tracks 1 and 2 of the three-track file exchanged. -/
theorem SwapTrack_spec_witness :
    SwapTrack exFile 1 2 = .ok (exHeader ++ exTrack0 ++ exTrack2 ++ exTrack1) :=
  (SwapTrack_spec exFile exDecoded 1 2 (by decide) (by decide) (by decide)).trans (by decide)

theorem map_getD_range {α : Type} (l : List α) (d : α) :
    (List.range l.length).map (fun i => l.getD i d) = l := by
  apply List.ext_getElem
  · simp
  · intro i h1 h2
    have hi : i < l.length := by simpa using h1
    simp [List.getElem?_eq_getElem hi]

theorem transposition_self (a i : Nat) : transposition a a i = i := by
  unfold transposition
  split_ifs with h <;> simp [h]

theorem transposition_invol (a b i : Nat) :
    transposition a b (transposition a b i) = i := by
  unfold transposition
  split_ifs <;> simp_all

theorem swapList_self {α : Type} (l : List α) (a : Nat) (d : α) (ha : a < l.length) :
    swapList l a a d = l := by
  rw [swapList_eq_map l a a d ha ha]
  simp only [transposition_self]
  exact map_getD_range l d

theorem length_swapList {α : Type} (l : List α) (a b : Nat) (d : α) :
    (swapList l a b d).length = l.length := by
  simp [swapList]

theorem getD_swapList {α : Type} (l : List α) (a b : Nat) (d : α)
    (ha : a < l.length) (hb : b < l.length) (i : Nat) (hi : i < l.length) :
    (swapList l a b d).getD i d = l.getD (transposition a b i) d := by
  rw [swapList_eq_map l a b d ha hb]
  simp [List.getD_eq_getElem?_getD, List.getElem?_eq_getElem, hi]

theorem swapList_swapList {α : Type} (l : List α) (a b : Nat) (d : α)
    (ha : a < l.length) (hb : b < l.length) :
    swapList (swapList l a b d) a b d = l := by
  rw [swapList_eq_map (swapList l a b d) a b d (by rwa [length_swapList])
    (by rwa [length_swapList]), length_swapList]
  rw [← map_getD_range l d]
  simp only [List.length_map, List.length_range]
  apply List.map_congr_left
  intro i hi
  have hi1 : i < l.length := List.mem_range.mp hi
  rw [map_getD_range l d, getD_swapList l a b d ha hb _ (transposition_lt ha hb hi1),
    transposition_invol]

theorem forall₂_swapList {α β : Type} {R : α → β → Prop} {l1 : List α} {l2 : List β}
    (h : List.Forall₂ R l1 l2) (a b : Nat) (d1 : α) (d2 : β)
    (ha : a < l1.length) (hb : b < l1.length) :
    List.Forall₂ R (swapList l1 a b d1) (swapList l2 a b d2) := by
  have hl := h.length_eq
  rw [swapList_eq_map l1 a b d1 ha hb, swapList_eq_map l2 a b d2 (hl ▸ ha) (hl ▸ hb), ← hl]
  rw [List.forall₂_map_left_iff, List.forall₂_map_right_iff, List.forall₂_same]
  intro i hi
  have hi1 : i < l1.length := List.mem_range.mp hi
  have hlt := transposition_lt ha hb hi1
  rw [List.getD_eq_getElem _ _ hlt, List.getD_eq_getElem _ _ (hl ▸ hlt)]
  exact h.get hlt (hl ▸ hlt)

theorem flatten_length_chunks : ∀ (cs : List (List Byte)) (ts : List Track),
    List.Forall₂ ChunkOf cs ts →
    cs.flatten.length = (ts.map (fun t => TrackHeaderLength + t.Header.Length)).sum := by
  intro cs ts hf
  induction hf with
  | nil => simp
  | @cons c t cs ts hct _ ih =>
    simp only [List.flatten_cons, List.length_append, List.map_cons, List.sum_cons, ih,
      hct.length, TrackHeaderLength]

/-- The bytes `SwapTrack` works on: the header and the chunks, without what
may follow them. -/
theorem take_chunkStart {buf : List Byte} {ts : List Track} {cs : List (List Byte)}
    {rest : List Byte} (hbuf : buf = buf.take 14 ++ cs.flatten ++ rest) (h14 : 14 ≤ buf.length)
    (hf : List.Forall₂ ChunkOf cs ts) :
    buf.take (chunkStart ts ts.length) = buf.take 14 ++ cs.flatten := by
  have hc : chunkStart ts ts.length = (buf.take 14 ++ cs.flatten).length := by
    simp only [chunkStart, List.take_length, HeaderLength, List.length_append,
      flatten_length_chunks cs ts hf, List.length_take, Nat.min_eq_left h14]
  rw [hc]
  have := List.take_left (buf.take 14 ++ cs.flatten) rest
  rw [← hbuf] at this
  exact this

/-- C1: on the three-track example file, `SwapTrack` with `a = -1` and with
`a = 3` (the number of tracks) does not return the invalid-index error: the
guard lets both through and the index expression `tstarts[a]` panics. -/
theorem SwapTrack_bad_index_panics :
    SwapTrack exFile (-1) 0 = .panic ∧ SwapTrack exFile 3 0 = .panic := by
  constructor <;> decide

/-- C3 as stated fails: the example file followed by one more byte is accepted
by `Decode`, and `SwapTrack` with `a = b = 0` writes the file without that
byte. -/
theorem SwapTrack_same_counterexample :
    Decode (exFile ++ [0x00]) = .ok exDecoded ∧
    SwapTrack (exFile ++ [0x00]) 0 0 = .ok exFile ∧ exFile ≠ exFile ++ [0x00] := by
  refine ⟨by decide, by decide, by decide⟩

/-- C3 amended: for every input that `Decode` accepts and every valid track
index `a`, `SwapTrack input a a` writes the input up to the end of its last
declared track chunk; the output is the input itself when nothing follows that
chunk. -/
theorem SwapTrack_same (buf : List Byte) (smf : SMF) (a : Nat)
    (hdec : Decode buf = .ok smf) (ha : a < smf.Tracks.length) :
    SwapTrack buf a a = .ok (buf.take (chunkStart smf.Tracks smf.Tracks.length)) ∧
    (buf.length = chunkStart smf.Tracks smf.Tracks.length → SwapTrack buf a a = .ok buf) := by
  obtain ⟨cs, rest, hbuf, h14, hf, hn, _⟩ := Decode_ok hdec
  have hlen : smf.Tracks.length = cs.length := hf.length_eq.symm
  have ha1 : a < cs.length := hlen ▸ ha
  have h1 : SwapTrack buf a a = .ok (buf.take (chunkStart smf.Tracks smf.Tracks.length)) := by
    rw [SwapTrack_chunks hdec hbuf h14 hf hn a a ha1 ha1, swapList_self cs a [] ha1,
      take_chunkStart hbuf h14 hf]
  refine ⟨h1, fun hl => ?_⟩
  rw [h1, ← hl, List.take_length]

/-- C3 amended, at a concrete input. -/
theorem SwapTrack_same_witness : SwapTrack exFile 1 1 = .ok exFile :=
  (SwapTrack_same exFile exDecoded 1 (by decide) (by decide)).2 (by decide)

/-- C4: for every file that `Decode` accepts and that is exactly its 14-byte
header followed by its declared track chunks, and all valid indices `a`, `b`,
`SwapTrack` with `(a, b)` succeeds, `SwapTrack` with `(a, b)` on its output
succeeds too, and the second output is the original file. -/
theorem SwapTrack_involution (buf : List Byte) (smf : SMF) (a b : Nat)
    (hdec : Decode buf = .ok smf)
    (hexact : buf.length = chunkStart smf.Tracks smf.Tracks.length)
    (ha : a < smf.Tracks.length) (hb : b < smf.Tracks.length) :
    ∃ out, SwapTrack buf a b = .ok out ∧ SwapTrack out a b = .ok buf := by
  obtain ⟨cs, rest, hbuf, h14, hf, hn, hhd⟩ := Decode_ok hdec
  have hlen : smf.Tracks.length = cs.length := hf.length_eq.symm
  have ha1 : a < cs.length := hlen ▸ ha
  have hb1 : b < cs.length := hlen ▸ hb
  have h14l : (buf.take 14).length = 14 := by simp; omega
  have hbuf1 : buf = buf.take 14 ++ cs.flatten := by
    have := take_chunkStart hbuf h14 hf
    rwa [← hexact, List.take_length] at this
  refine ⟨buf.take 14 ++ (swapList cs a b []).flatten,
    SwapTrack_chunks hdec hbuf h14 hf hn a b ha1 hb1, ?_⟩
  have hf1 := forall₂_swapList hf a b [] exTrack0Decoded ha1 hb1
  have hdec1 := Decode_chunks hhd hf1 (by rw [length_swapList]; exact hn) []
  rw [List.append_nil] at hdec1
  have htake : (buf.take 14 ++ (swapList cs a b []).flatten).take 14 = buf.take 14 :=
    List.take_left' h14l
  have := @SwapTrack_chunks _ _ hdec1 _ [] (by rw [htake, List.append_nil])
    (by simp; omega) hf1 (by rw [length_swapList]; exact hn) a b
    (by rwa [length_swapList]) (by rwa [length_swapList])
  rw [this, htake, swapList_swapList cs a b [] ha1 hb1, ← hbuf1]

/-- C4 at a concrete input: tracks 1 and 2 exchanged twice. -/
theorem SwapTrack_involution_witness :
    ∃ out, SwapTrack exFile 1 2 = .ok out ∧ SwapTrack out 1 2 = .ok exFile :=
  SwapTrack_involution exFile exDecoded 1 2 (by decide) (by decide) (by decide) (by decide)

/-! ## parseEvent on an explicit status byte -/

theorem byte_and_80_ne (x : Byte) (hx : contBit x = true) : ¬ (x.val &&& 0x80 = 0) :=
  (byte_and_80 x).mpr hx

/-- `parseEvent` on a buffer whose delta-time is followed by a byte with the
high bit clear: the running-status branch. -/
theorem parseEvent_running (dt : List Byte) (delta : Nat) (x : Byte) (data : List Byte)
    (prev : Option Event)
    (hdt : variableLengthUint32 dt = .ok (delta, dt.length)) (hx : contBit x = false) :
    parseEvent (dt ++ x :: data) prev =
      match prev with
      | none => .error .invalidRunningStatus
      | some p =>
        parseEventBody (dt ++ x :: data) delta (toByte (p.Type_.val ||| p.Channel.val))
          (x :: data) := by
  unfold parseEvent
  rw [variableLengthUint32_append_rest dt (x :: data) _ hdt]
  simp only [sliceFrom_of_le (show dt.length ≤ (dt ++ x :: data).length by simp),
    List.drop_left, byte_and_80_zero x hx, if_true]

/-- `parseEvent` on a buffer whose delta-time is followed by a status byte. -/
theorem parseEvent_explicit (dt : List Byte) (delta : Nat) (s : Byte) (data : List Byte)
    (prev : Option Event)
    (hdt : variableLengthUint32 dt = .ok (delta, dt.length)) (hs : contBit s = true) :
    parseEvent (dt ++ s :: data) prev = parseEventBody (dt ++ s :: data) delta s data := by
  unfold parseEvent
  rw [variableLengthUint32_append_rest dt (s :: data) _ hdt]
  simp only [sliceFrom_of_le (show dt.length ≤ (dt ++ s :: data).length by simp),
    List.drop_left, if_neg (byte_and_80_ne s hs)]

set_option maxRecDepth 100000 in
theorem channelPayload_status : ∀ s : Byte,
    channelPayload (toByte (s.val &&& 0xF0)) = statusPayload s := by
  decide

set_option maxRecDepth 100000 in
theorem contBit_of_ge : ∀ s : Byte, 0x80 ≤ s.val → contBit s = true := by
  decide

set_option maxRecDepth 100000 in
theorem channel_lt_16 : ∀ s : Byte, (toByte (s.val &&& 0x0F)).val < 16 := by
  decide

/-- C12: for a buffer made of a valid delta-time of `d` bytes, a status byte
`s` in 0x80..0xEF and at least `k` further bytes (`k = 2` for the high nibbles
8, 9, A, B, E and `k = 1` for C, D), `parseEvent` returns an event with
Type `s & 0xF0`, Channel `s & 0x0F` (below 16), the decoded delta-time, Value
the `k` bytes after the status byte and Length `d + 1 + k`. -/
theorem parseEvent_channel (dt : List Byte) (delta : Nat) (s : Byte) (data : List Byte)
    (prev : Option Event)
    (hdt : variableLengthUint32 dt = .ok (delta, dt.length))
    (hs : 0x80 ≤ s.val ∧ s.val ≤ 0xEF) (hlen : statusPayload s ≤ data.length) :
    parseEvent (dt ++ s :: data) prev =
      .ok { Type_ := toByte (s.val &&& 0xF0), Channel := toByte (s.val &&& 0x0F),
            Delta := delta, Length := dt.length + 1 + statusPayload s,
            Value := data.take (statusPayload s) } ∧
    (toByte (s.val &&& 0x0F)).val < 16 := by
  refine ⟨?_, channel_lt_16 s⟩
  rw [parseEvent_explicit dt delta s data prev hdt (contBit_of_ge s hs.1),
    parseEventBody_channel _ _ s _ (by omega) (by omega) (by omega)
      (by rw [channelPayload_status]; exact hlen),
    channelPayload_status]
  congr 2
  simp only [List.length_append, List.length_cons, List.length_drop]
  omega

/-- C12 at a concrete input: a program change on channel 5 after a two-byte
delta-time. -/
theorem parseEvent_channel_witness :
    parseEvent [0x81, 0x00, 0xC5, 0x07, 0x00] none =
      .ok { Type_ := 0xC0, Channel := 5, Delta := 128, Length := 4, Value := [0x07] } :=
  (parseEvent_channel [0x81, 0x00] 128 0xC5 [0x07, 0x00] none (by decide) (by decide)
    (by decide)).1

/-- The length-prefixed payload read by the meta and system-exclusive branches. -/
theorem payload_slices (lenq payload rest : List Byte) (n : Nat)
    (hq : variableLengthUint32 lenq = .ok (n, lenq.length)) (hp : payload.length = n) :
    variableLengthUint32 (lenq ++ payload ++ rest) = .ok (n, lenq.length) ∧
    sliceFrom (lenq ++ payload ++ rest) lenq.length = some (payload ++ rest) ∧
    sliceTo (payload ++ rest) n = some payload ∧
    sliceFrom (payload ++ rest) n = some rest := by
  refine ⟨?_, ?_, ?_, ?_⟩
  · rw [List.append_assoc]; exact variableLengthUint32_append_rest _ _ _ hq
  · rw [sliceFrom_of_le (by simp only [List.length_append]; omega), List.append_assoc,
      List.drop_left]
  · rw [sliceTo_of_le (by simp only [List.length_append]; omega), ← hp, List.take_left]
  · rw [sliceFrom_of_le (by simp only [List.length_append]; omega), ← hp, List.drop_left]

/-- The meta branch of `parseEventBody`. -/
theorem parseEventBody_meta (buf : List Byte) (delta : Nat) (s t : Byte)
    (lenq payload rest : List Byte) (n : Nat) (hs : s.val = 0xFF)
    (hq : variableLengthUint32 lenq = .ok (n, lenq.length)) (hp : payload.length = n) :
    parseEventBody buf delta s (t :: (lenq ++ payload ++ rest)) =
      .ok { Type_ := t, Channel := 0, Delta := delta,
            Length := buf.length - rest.length, Value := payload } := by
  obtain ⟨h1, h2, h3, h4⟩ := payload_slices lenq payload rest n hq hp
  unfold parseEventBody
  rw [if_pos hs]
  simp only [h1, h2, h3, h4]

/-- The system-exclusive branch of `parseEventBody`. -/
theorem parseEventBody_sysex (buf : List Byte) (delta : Nat) (s : Byte)
    (lenq payload rest : List Byte) (n : Nat) (hs : s.val = 0xF0 ∨ s.val = 0xF7)
    (hq : variableLengthUint32 lenq = .ok (n, lenq.length)) (hp : payload.length = n) :
    parseEventBody buf delta s (lenq ++ payload ++ rest) =
      .ok { Type_ := s, Channel := 0, Delta := delta,
            Length := buf.length - rest.length, Value := payload } := by
  obtain ⟨h1, h2, h3, h4⟩ := payload_slices lenq payload rest n hq hp
  unfold parseEventBody
  rw [if_neg (by omega), if_pos (by simpa [MTSysEx, MTSpecialSysEx] using hs)]
  simp only [h1, h2, h3, h4]

/-- C13: for a buffer made of a valid delta-time of `d` bytes, then either the
status byte 0xFF and a type byte `t`, or the status byte 0xF0 or 0xF7, then a
valid quantity of `m` bytes with value `n`, then `n` payload bytes (and anything
after them), `parseEvent` returns an event whose Value is the payload, whose
Delta is the decoded delta-time, whose Type is `t` (meta) or the status byte
(system exclusive) and whose Length is `d + 2 + m + n` (meta) or
`d + 1 + m + n` (system exclusive). -/
theorem parseEvent_meta_sysex (dt : List Byte) (delta : Nat) (s t : Byte)
    (lenq payload rest : List Byte) (n : Nat) (prev : Option Event)
    (hdt : variableLengthUint32 dt = .ok (delta, dt.length))
    (hq : variableLengthUint32 lenq = .ok (n, lenq.length)) (hp : payload.length = n) :
    (s.val = 0xFF →
      parseEvent (dt ++ s :: t :: (lenq ++ payload ++ rest)) prev =
        .ok { Type_ := t, Channel := 0, Delta := delta,
              Length := dt.length + 2 + lenq.length + n, Value := payload }) ∧
    (s.val = 0xF0 ∨ s.val = 0xF7 →
      parseEvent (dt ++ s :: (lenq ++ payload ++ rest)) prev =
        .ok { Type_ := s, Channel := 0, Delta := delta,
              Length := dt.length + 1 + lenq.length + n, Value := payload }) := by
  constructor
  · intro hs
    rw [parseEvent_explicit dt delta s _ prev hdt (contBit_of_ge s (by omega)),
      parseEventBody_meta _ delta s t lenq payload rest n hs hq hp]
    congr 2
    simp only [List.length_append, List.length_cons]
    omega
  · intro hs
    rw [parseEvent_explicit dt delta s _ prev hdt (contBit_of_ge s (by omega)),
      parseEventBody_sysex _ delta s lenq payload rest n hs hq hp]
    congr 2
    simp only [List.length_append, List.length_cons]
    omega

/-- C13 at a concrete input: a set-tempo meta event and a system-exclusive
event, each followed by further bytes. -/
theorem parseEvent_meta_sysex_witness :
    parseEvent [0x00, 0xFF, 0x51, 0x03, 0x07, 0xA1, 0x20, 0x00] none =
      .ok { Type_ := 0x51, Channel := 0, Delta := 0, Length := 7,
            Value := [0x07, 0xA1, 0x20] } :=
  (parseEvent_meta_sysex [0x00] 0 0xFF 0x51 [0x03] [0x07, 0xA1, 0x20] [0x00] 3 none
    (by decide) (by decide) (by decide)).1 (by decide)

/-! ## readHeader -/

theorem and_8000 (n : Nat) : (n &&& 0x8000 ≠ 0) ↔ n.testBit 15 = true := by
  have h2 : (0x8000 : Nat) = 2 ^ 15 := by norm_num
  rw [h2]
  constructor
  · intro h
    by_contra hc
    apply h
    apply Nat.eq_of_testBit_eq
    intro i
    rw [Nat.testBit_and, Nat.testBit_two_pow, Nat.zero_testBit]
    by_cases hi : 15 = i
    · subst hi; simp [hc]
    · simp [hi]
  · intro h hz
    have h1 : (n &&& 2 ^ 15).testBit 15 = true := by
      rw [Nat.testBit_and, h, Nat.testBit_two_pow_self]; rfl
    rw [hz] at h1
    simp at h1

/-- C14: `readHeader` succeeds exactly when at least 14 bytes are available,
the first four are "MThd" and the top bit of the division field is 0; on
success the fields are the big-endian decoding of bytes 4..13; with fewer than
14 bytes or a wrong magic it fails with an error of the kind malformed header
(`io.EOF` on no byte, `io.ErrUnexpectedEOF` on 1..13 bytes, the
"not found 'MThd'" error on a wrong magic); with a correct magic and the top bit
of the division set it fails with the unsupported-timing error, and so does
`Decode`, whatever follows the header. -/
theorem readHeader_spec (r : List Byte) :
    ((∃ h r1, readHeader r = .ok (h, r1)) ↔
      14 ≤ r.length ∧ r.take 4 = magicMThd ∧
        (bigEndian ((r.drop 12).take 2)).testBit 15 = false) ∧
    (∀ h r1, readHeader r = .ok (h, r1) →
      h.ID = r.take 4 ∧ h.Size = bigEndian ((r.drop 4).take 4) ∧
      h.Format = bigEndian ((r.drop 8).take 2) ∧
      h.NumTrack = bigEndian ((r.drop 10).take 2) ∧
      h.Division = bigEndian ((r.drop 12).take 2) ∧ r1 = r.drop 14) ∧
    (r.length = 0 → readHeader r = .error .eof) ∧
    (0 < r.length → r.length < 14 → readHeader r = .error .unexpectedEOF) ∧
    (14 ≤ r.length → r.take 4 ≠ magicMThd → readHeader r = .error .invalidHeader) ∧
    (r.length < 14 ∨ r.take 4 ≠ magicMThd →
      ∃ e, readHeader r = .error e ∧ MalformedHeader e) ∧
    (14 ≤ r.length → r.take 4 = magicMThd →
      (bigEndian ((r.drop 12).take 2)).testBit 15 = true →
      readHeader r = .error (.unsupportedSMPTE (bigEndian ((r.drop 12).take 2))) ∧
      Decode r = .error (.unsupportedSMPTE (bigEndian ((r.drop 12).take 2)))) := by
  have hdiv := and_8000 (bigEndian ((r.drop 12).take 2))
  have e0 : r.length = 0 → readHeader r = .error .eof := by
    intro h; unfold readHeader; rw [if_pos h]
  have e1 : 0 < r.length → r.length < 14 → readHeader r = .error .unexpectedEOF := by
    intro h1 h2; unfold readHeader; rw [if_neg (by omega), if_pos h2]
  have e2 : 14 ≤ r.length → r.take 4 ≠ magicMThd → readHeader r = .error .invalidHeader := by
    intro h1 h2; unfold readHeader; dsimp only
    rw [if_neg (by omega), if_neg (by omega), if_pos h2]
  have e3 : 14 ≤ r.length → r.take 4 = magicMThd →
      (bigEndian ((r.drop 12).take 2)).testBit 15 = true →
      readHeader r = .error (.unsupportedSMPTE (bigEndian ((r.drop 12).take 2))) := by
    intro h1 h2 h3; unfold readHeader; dsimp only
    rw [if_neg (by omega), if_neg (by omega), if_neg (by simp [h2]), if_pos (hdiv.mpr h3)]
  have ok : 14 ≤ r.length → r.take 4 = magicMThd →
      (bigEndian ((r.drop 12).take 2)).testBit 15 = false →
      readHeader r = .ok (⟨r.take 4, bigEndian ((r.drop 4).take 4),
        bigEndian ((r.drop 8).take 2), bigEndian ((r.drop 10).take 2),
        bigEndian ((r.drop 12).take 2)⟩, r.drop 14) := by
    intro h1 h2 h3; unfold readHeader; dsimp only
    rw [if_neg (by omega), if_neg (by omega), if_neg (by simp [h2]),
      if_neg (by rw [hdiv, h3]; simp)]
  have hmal : r.length < 14 ∨ r.take 4 ≠ magicMThd →
      ∃ e, readHeader r = .error e ∧ MalformedHeader e := by
    intro h
    by_cases h0 : r.length = 0
    · exact ⟨_, e0 h0, Or.inl rfl⟩
    · by_cases h14 : r.length < 14
      · exact ⟨_, e1 (by omega) h14, Or.inr (Or.inl rfl)⟩
      · rcases h with h | h
        · omega
        · exact ⟨_, e2 (by omega) h, Or.inr (Or.inr rfl)⟩
  have hcases : ∀ h r1, readHeader r = .ok (h, r1) →
      14 ≤ r.length ∧ r.take 4 = magicMThd ∧
        (bigEndian ((r.drop 12).take 2)).testBit 15 = false := by
    intro h r1 hr
    by_cases hm : r.length < 14 ∨ r.take 4 ≠ magicMThd
    · obtain ⟨e, he, _⟩ := hmal hm
      rw [he] at hr; cases hr
    · have h14 : 14 ≤ r.length := by
        by_contra hc; exact hm (Or.inl (by omega))
      have hid : r.take 4 = magicMThd := by
        by_contra hc; exact hm (Or.inr hc)
      refine ⟨h14, hid, ?_⟩
      by_contra hb
      rw [e3 h14 hid (by simpa using hb)] at hr
      cases hr
  refine ⟨⟨?_, ?_⟩, ?_, e0, e1, e2, hmal, ?_⟩
  · rintro ⟨h, r1, hr⟩; exact hcases h r1 hr
  · rintro ⟨h1, h2, h3⟩; exact ⟨_, _, ok h1 h2 h3⟩
  · intro h r1 hr
    obtain ⟨h1, h2, h3⟩ := hcases h r1 hr
    rw [ok h1 h2 h3] at hr
    cases hr
    exact ⟨rfl, rfl, rfl, rfl, rfl, rfl⟩
  · intro h1 h2 h3
    refine ⟨e3 h1 h2 h3, ?_⟩
    unfold Decode
    rw [e3 h1 h2 h3]

/-- C14 at a concrete input: a header with division 0x8000 followed by bytes
that are no track chunk. -/
theorem readHeader_spec_witness :
    readHeader exHeaderSMPTE = .error (.unsupportedSMPTE 0x8000) ∧
      Decode exHeaderSMPTE = .error (.unsupportedSMPTE 0x8000) :=
  (readHeader_spec exHeaderSMPTE).2.2.2.2.2.2 (by decide) (by decide) (by decide)

/-! ## The length of a parsed event -/

theorem vlqLoop_count : ∀ (k i prod : Nat) (xs : List Byte) (v c : Nat),
    vlqLoop k i prod xs = .ok (v, c) → i + 1 ≤ c ∧ c ≤ i + xs.length := by
  intro k
  induction k with
  | zero => intro i prod xs v c h; simp [vlqLoop] at h
  | succ k ih =>
    intro i prod xs v c h
    cases xs with
    | nil => simp [vlqLoop] at h
    | cons x xs =>
      cases hx : contBit x with
      | true =>
        rw [vlqLoop_cont _ _ _ _ _ hx] at h
        have := ih _ _ _ _ _ h
        simp only [List.length_cons]
        omega
      | false =>
        rw [vlqLoop_stop _ _ _ _ _ hx] at h
        cases h
        simp only [List.length_cons]
        omega

theorem vlqLoop_returns : ∀ (k i prod : Nat) (xs : List Byte),
    vlqLoop k i prod xs ≠ .panic ∧ vlqLoop k i prod xs ≠ .outOfFuel := by
  intro k
  induction k with
  | zero => intro i prod xs; simp [vlqLoop]
  | succ k ih =>
    intro i prod xs
    cases xs with
    | nil => simp [vlqLoop]
    | cons x xs =>
      cases hx : contBit x with
      | true => rw [vlqLoop_cont _ _ _ _ _ hx]; exact ih _ _ _
      | false => rw [vlqLoop_stop _ _ _ _ _ hx]; simp

theorem variableLengthUint32_count {b : List Byte} {v c : Nat}
    (h : variableLengthUint32 b = .ok (v, c)) : 1 ≤ c ∧ c ≤ b.length := by
  have := vlqLoop_count 4 0 0 b v c h
  omega

theorem sliceTo_some {b c : List Byte} {n : Nat} (h : sliceTo b n = some c) :
    n ≤ b.length ∧ c = b.take n := by
  unfold sliceTo at h
  split_ifs at h with hn
  exact ⟨hn, by cases h; rfl⟩

/-- The length-prefixed payload: what is left after it is shorter by the
quantity and the payload. -/
theorem payload_length {b : List Byte} {size n : Nat} {b1 value b2 : List Byte}
    (hq : variableLengthUint32 b = .ok (size, n)) (h1 : sliceFrom b n = some b1)
    (h2 : sliceTo b1 size = some value) (h3 : sliceFrom b1 size = some b2) :
    1 ≤ n ∧ n + size ≤ b.length ∧ b2.length = b.length - (n + size) := by
  obtain ⟨hn1, hn2⟩ := variableLengthUint32_count hq
  obtain ⟨_, rfl⟩ := sliceFrom_some h1
  obtain ⟨hs, rfl⟩ := sliceFrom_some h3
  simp only [List.length_drop] at hs ⊢
  omega

/-- After a successful `parseEventBody`, the event ends `m` bytes into `b`,
with `1 ≤ m ≤ len b`. -/
theorem parseEventBody_length {buf : List Byte} {delta : Nat} {s : Byte} {b : List Byte}
    {e : Event} (h : parseEventBody buf delta s b = .ok e) :
    ∃ m, 1 ≤ m ∧ m ≤ b.length ∧ e.Length = buf.length - (b.length - m) := by
  unfold parseEventBody at h
  split_ifs at h with h1 h2
  · cases b with
    | nil => cases h
    | cons t b =>
      dsimp only at h
      cases hq : variableLengthUint32 b with
      | error e1 => rw [hq] at h; cases h
      | panic => rw [hq] at h; cases h
      | outOfFuel => rw [hq] at h; cases h
      | ok p =>
        obtain ⟨size, n⟩ := p
        rw [hq] at h
        dsimp only at h
        cases hb1 : sliceFrom b n with
        | none => rw [hb1] at h; cases h
        | some b1 =>
          rw [hb1] at h
          dsimp only at h
          cases hv : sliceTo b1 size with
          | none => rw [hv] at h; cases h
          | some value =>
            cases hb2 : sliceFrom b1 size with
            | none => rw [hv, hb2] at h; cases h
            | some b2 =>
              rw [hv, hb2] at h
              cases h
              obtain ⟨hn, hle, hl⟩ := payload_length hq hb1 hv hb2
              refine ⟨1 + n + size, by omega, by simp only [List.length_cons]; omega, ?_⟩
              simp only [List.length_cons, hl]
              omega
  · cases hq : variableLengthUint32 b with
    | error e1 => rw [hq] at h; cases h
    | panic => rw [hq] at h; cases h
    | outOfFuel => rw [hq] at h; cases h
    | ok p =>
      obtain ⟨size, n⟩ := p
      rw [hq] at h
      dsimp only at h
      cases hb1 : sliceFrom b n with
      | none => rw [hb1] at h; cases h
      | some b1 =>
        rw [hb1] at h
        dsimp only at h
        cases hv : sliceTo b1 size with
        | none => rw [hv] at h; cases h
        | some value =>
          cases hb2 : sliceFrom b1 size with
          | none => rw [hv, hb2] at h; cases h
          | some b2 =>
            rw [hv, hb2] at h
            cases h
            obtain ⟨hn, hle, hl⟩ := payload_length hq hb1 hv hb2
            refine ⟨n + size, by omega, by omega, ?_⟩
            simp only [hl]
  · dsimp only at h
    generalize hk : (if (toByte (s.val &&& 0xF0)).val = 0x80 ∨ (toByte (s.val &&& 0xF0)).val = 0x90
      ∨ (toByte (s.val &&& 0xF0)).val = 0xA0 ∨ (toByte (s.val &&& 0xF0)).val = 0xB0
      ∨ (toByte (s.val &&& 0xF0)).val = 0xE0 then 2
      else if (toByte (s.val &&& 0xF0)).val = 0xC0 ∨ (toByte (s.val &&& 0xF0)).val = 0xD0
        then 1 else 1) = k at h
    have hk1 : 1 ≤ k := by
      rw [← hk]; split_ifs <;> omega
    cases hv : sliceTo b k with
    | none => rw [hv] at h; cases h
    | some value =>
      cases hb2 : sliceFrom b k with
      | none => rw [hv, hb2] at h; cases h
      | some b2 =>
        rw [hv, hb2] at h
        cases h
        obtain ⟨hle, rfl⟩ := sliceFrom_some hb2
        refine ⟨k, hk1, hle, ?_⟩
        simp only [List.length_drop]

/-- A successful `parseEvent` consumes at least two bytes and no more than the
buffer holds. -/
theorem parseEvent_length {buf : List Byte} {prev : Option Event} {e : Event}
    (h : parseEvent buf prev = .ok e) : 2 ≤ e.Length ∧ e.Length ≤ buf.length := by
  unfold parseEvent at h
  cases hq : variableLengthUint32 buf with
  | error e1 => rw [hq] at h; cases h
  | panic => rw [hq] at h; cases h
  | outOfFuel => rw [hq] at h; cases h
  | ok p =>
    obtain ⟨delta, n⟩ := p
    rw [hq] at h
    dsimp only at h
    obtain ⟨hn1, hn2⟩ := variableLengthUint32_count hq
    rw [sliceFrom_of_le hn2] at h
    dsimp only at h
    cases hb : buf.drop n with
    | nil => rw [hb] at h; cases h
    | cons status b1 =>
      rw [hb] at h
      dsimp only at h
      have hlen : (status :: b1).length = buf.length - n := by
        rw [← hb, List.length_drop]
      simp only [List.length_cons] at hlen
      split_ifs at h with hrun
      · cases prev with
        | none => cases h
        | some p =>
          dsimp only at h
          obtain ⟨m, hm1, hm2, hl⟩ := parseEventBody_length h
          simp only [List.length_cons] at hm2 hl
          omega
      · obtain ⟨m, hm1, hm2, hl⟩ := parseEventBody_length h
        omega

theorem variableLengthUint32_returns (b : List Byte) :
    variableLengthUint32 b ≠ .panic ∧ variableLengthUint32 b ≠ .outOfFuel :=
  vlqLoop_returns 4 0 0 b

theorem parseEventBody_returns (buf : List Byte) (delta : Nat) (s : Byte) (b : List Byte) :
    parseEventBody buf delta s b ≠ .outOfFuel := by
  intro h
  unfold parseEventBody at h
  split_ifs at h
  · cases b with
    | nil => cases h
    | cons t b =>
      dsimp only at h
      cases hq : variableLengthUint32 b with
      | error e1 => rw [hq] at h; cases h
      | panic => rw [hq] at h; cases h
      | outOfFuel => exact (variableLengthUint32_returns b).2 hq
      | ok p =>
        rw [hq] at h
        dsimp only at h
        repeat' split at h
        all_goals cases h
  · cases hq : variableLengthUint32 b with
    | error e1 => rw [hq] at h; cases h
    | panic => rw [hq] at h; cases h
    | outOfFuel => exact (variableLengthUint32_returns b).2 hq
    | ok p =>
      rw [hq] at h
      dsimp only at h
      repeat' split at h
      all_goals cases h
  · dsimp only at h
    split at h <;> cases h

/-- `parseEvent` has no loop of its own to run out of fuel. -/
theorem parseEvent_returns (buf : List Byte) (prev : Option Event) :
    parseEvent buf prev ≠ .outOfFuel := by
  intro h
  unfold parseEvent at h
  cases hq : variableLengthUint32 buf with
  | error e1 => rw [hq] at h; cases h
  | panic => rw [hq] at h; cases h
  | outOfFuel => exact (variableLengthUint32_returns buf).2 hq
  | ok p =>
    rw [hq] at h
    dsimp only at h
    split at h
    · cases h
    · split at h
      · cases h
      · split_ifs at h
        · cases prev with
          | none => cases h
          | some p => exact parseEventBody_returns _ _ _ _ h
        · exact parseEventBody_returns _ _ _ _ h

/-! ## Termination of the event loop -/

/-- The loop does not run out of fuel when it has one unit of fuel for every
two bytes left, and one more. -/
theorem eventLoop_terminates : ∀ (fuel : Nat) (buf : List Byte) (prev : Option Event)
    (ePos eEnd : Nat) (events : List Event), eEnd - ePos < 2 * fuel →
    eventLoop fuel buf prev ePos eEnd events ≠ .outOfFuel := by
  intro fuel
  induction fuel with
  | zero => intro buf prev ePos eEnd events h; omega
  | succ fuel ih =>
    intro buf prev ePos eEnd events hf h
    unfold eventLoop at h
    split_ifs at h with hlt
    · cases hp : parseEvent buf prev with
      | error e1 => rw [hp] at h; cases h
      | panic => rw [hp] at h; cases h
      | outOfFuel => exact parseEvent_returns buf prev hp
      | ok e =>
        rw [hp] at h
        dsimp only at h
        have hl := parseEvent_length hp
        rw [sliceFrom_of_le hl.2] at h
        dsimp only at h
        split_ifs at h with hbad
        exact ih _ _ _ _ _ (by omega) h

/-- More fuel than needed does not change what the loop returns. -/
theorem eventLoop_fuel : ∀ (f1 f2 : Nat) (buf : List Byte) (prev : Option Event)
    (ePos eEnd : Nat) (events : List Event), eEnd - ePos < 2 * f1 → f1 ≤ f2 →
    eventLoop f2 buf prev ePos eEnd events = eventLoop f1 buf prev ePos eEnd events := by
  intro f1
  induction f1 with
  | zero => intro f2 buf prev ePos eEnd events h; omega
  | succ f1 ih =>
    intro f2 buf prev ePos eEnd events hf hle
    obtain ⟨f2, rfl⟩ : ∃ k, f2 = k + 1 := ⟨f2 - 1, by omega⟩
    unfold eventLoop
    split_ifs with hlt
    · cases hp : parseEvent buf prev with
      | error e1 => rfl
      | panic => rfl
      | outOfFuel => rfl
      | ok e =>
        dsimp only
        have hl := parseEvent_length hp
        rw [sliceFrom_of_le hl.2]
        dsimp only
        split_ifs with hbad
        · rfl
        · exact ih _ _ _ _ _ _ (by omega) (by omega)
    · rfl

/-- Every event read takes at least two bytes of the way to `eEnd`. -/
theorem eventLoop_count : ∀ (fuel : Nat) (buf : List Byte) (prev : Option Event)
    (ePos eEnd : Nat) (events evs : List Event),
    eventLoop fuel buf prev ePos eEnd events = .ok evs → ePos ≤ eEnd →
    2 * evs.length + ePos ≤ 2 * events.length + eEnd := by
  intro fuel
  induction fuel with
  | zero => intro buf prev ePos eEnd events evs h; simp [eventLoop] at h
  | succ fuel ih =>
    intro buf prev ePos eEnd events evs h hle
    unfold eventLoop at h
    split_ifs at h with hlt
    · cases hp : parseEvent buf prev with
      | error e1 => rw [hp] at h; cases h
      | panic => rw [hp] at h; cases h
      | outOfFuel => rw [hp] at h; cases h
      | ok e =>
        rw [hp] at h
        dsimp only at h
        have hl := parseEvent_length hp
        rw [sliceFrom_of_le hl.2] at h
        dsimp only at h
        split_ifs at h with hbad
        have := ih _ _ _ _ _ _ h (by omega)
        simp only [List.length_append, List.length_singleton] at this
        omega
    · cases h
      omega

theorem readTrack_returns (r : List Byte) : readTrack r ≠ .outOfFuel := by
  intro h
  unfold readTrack at h
  dsimp only at h
  split_ifs at h
  split at h
  · cases h
  · cases h
  · rename_i hev
    exact eventLoop_terminates _ _ _ _ _ _ (by omega) hev
  · cases h

/-- C20: a successful `parseEvent` returns a Length between 2 and the length of
the buffer; hence the event loop of `readTrack` advances at each iteration and
ends within `Length / 2` events: fuel `Length / 2 + 1` is enough for the loop,
`readTrack` never runs out of fuel, and a track that is returned has at most
`Header.Length / 2` events. -/
theorem parseEvent_progress :
    (∀ (buf : List Byte) (prev : Option Event) (e : Event),
      parseEvent buf prev = .ok e → 2 ≤ e.Length ∧ e.Length ≤ buf.length) ∧
    (∀ (body : List Byte) (L : Nat),
      eventLoop (L / 2 + 1) body none 0 L [] ≠ .outOfFuel ∧
      eventLoop (L + 1) body none 0 L [] = eventLoop (L / 2 + 1) body none 0 L []) ∧
    (∀ r : List Byte, readTrack r ≠ .outOfFuel) ∧
    (∀ (r : List Byte) (t : Track) (rest : List Byte),
      readTrack r = .ok (t, rest) → t.Events.length ≤ t.Header.Length / 2) := by
  refine ⟨fun buf prev e h => parseEvent_length h, ?_, readTrack_returns, ?_⟩
  · intro body L
    exact ⟨eventLoop_terminates _ _ _ _ _ _ (by omega),
      eventLoop_fuel _ _ _ _ _ _ _ (by omega) (by omega)⟩
  · intro r t rest h
    obtain ⟨_, _, _, _, _, _, hev⟩ := readTrack_ok h
    have := eventLoop_count _ _ _ _ _ _ _ hev (Nat.zero_le _)
    simp only [List.length_nil] at this
    omega

/-- C20 at a concrete input: the two events of `exTrack1`, declared length 8. -/
theorem parseEvent_progress_witness :
    readTrack exTrack1 = .ok (exTrack1Decoded, []) ∧
      exTrack1Decoded.Events.length ≤ exTrack1Decoded.Header.Length / 2 :=
  ⟨by decide, parseEvent_progress.2.2.2 exTrack1 exTrack1Decoded [] (by decide)⟩

/-! ## Decode as a sequence of steps -/

theorem readTracksAux_succ (n : Nat) (r : List Byte) (acc : List Track) :
    readTracksAux (n + 1) r acc =
      match readTrack r with
      | .error e => .error e
      | .panic => .panic
      | .outOfFuel => .outOfFuel
      | .ok (t, r1) => readTracksAux n r1 (acc ++ [t]) := rfl

/-- After successful reads of `ts`, `readTracksAux` goes on from where they
ended. -/
theorem readTracksAux_reads {r r2 : List Byte} {ts : List Track} (h : ReadsTracks r ts r2) :
    ∀ (k : Nat) (acc : List Track),
    readTracksAux (ts.length + k) r acc = readTracksAux k r2 (acc ++ ts) := by
  induction h with
  | nil r => intro k acc; simp
  | @cons r r1 r2 t ts hr _ ih =>
    intro k acc
    rw [show (t :: ts).length + k = (ts.length + k) + 1 by simp; omega,
      readTracksAux_succ, hr]
    dsimp only
    rw [ih]
    simp

theorem readTracksAux_reads_ok : ∀ (n : Nat) (r : List Byte) (acc ts1 : List Track),
    readTracksAux n r acc = .ok ts1 →
    ∃ ts r2, ts1 = acc ++ ts ∧ ReadsTracks r ts r2 ∧ ts.length = n := by
  intro n
  induction n with
  | zero =>
    intro r acc ts1 h
    simp only [readTracksAux] at h
    cases h
    exact ⟨[], r, by simp, ReadsTracks.nil r, rfl⟩
  | succ n ih =>
    intro r acc ts1 h
    unfold readTracksAux at h
    cases hr : readTrack r with
    | error e => rw [hr] at h; cases h
    | panic => rw [hr] at h; cases h
    | outOfFuel => rw [hr] at h; cases h
    | ok p =>
      obtain ⟨t, r1⟩ := p
      rw [hr] at h
      obtain ⟨ts, r2, hts, hreads, hn⟩ := ih _ _ _ h
      exact ⟨t :: ts, r2, by rw [hts]; simp, ReadsTracks.cons hr hreads, by simp [hn]⟩

theorem readsTracks_of_chunks : ∀ (cs : List (List Byte)) (ts : List Track),
    List.Forall₂ ChunkOf cs ts → ∀ r : List Byte, ReadsTracks (cs.flatten ++ r) ts r := by
  intro cs ts hf
  induction hf with
  | nil => intro r; exact ReadsTracks.nil r
  | @cons c t cs ts hct _ ih =>
    intro r
    rw [List.flatten_cons, List.append_assoc]
    exact ReadsTracks.cons (hct.append _) (ih r)

/-- `Decode` after a header and `ts.length` successful track reads: the next
read decides. -/
theorem Decode_steps {buf r1 r2 : List Byte} {h : Header} {ts : List Track}
    (hh : readHeader buf = .ok (h, r1)) (hr : ReadsTracks r1 ts r2) (k : Nat)
    (hn : h.NumTrack = ts.length + k) :
    Decode buf =
      match readTracksAux k r2 ts with
      | .error e => .error e
      | .panic => .panic
      | .outOfFuel => .outOfFuel
      | .ok tracks => .ok { Header := h, Tracks := tracks } := by
  unfold Decode
  rw [hh]
  dsimp only
  unfold readTracks
  rw [hn, readTracksAux_reads hr]
  simp

/-- C16: `Decode` succeeds exactly when `readHeader` succeeds and
`Header.NumTrack` consecutive `readTrack` calls succeed, each starting where
the previous chunk ended; the tracks are returned in that order; and when the
header or one of the tracks is not read, `Decode` returns no document but the
error of that first failing step (and panics when that step panics). -/
theorem Decode_spec (buf : List Byte) :
    (∀ smf : SMF, Decode buf = .ok smf ↔
      ∃ r1 r2, readHeader buf = .ok (smf.Header, r1) ∧ ReadsTracks r1 smf.Tracks r2 ∧
        smf.Tracks.length = smf.Header.NumTrack) ∧
    (∀ e, readHeader buf = .error e → Decode buf = .error e) ∧
    (∀ h r1 ts r2 e, readHeader buf = .ok (h, r1) → ReadsTracks r1 ts r2 →
      ts.length < h.NumTrack → readTrack r2 = .error e → Decode buf = .error e) ∧
    (∀ h r1 ts r2, readHeader buf = .ok (h, r1) → ReadsTracks r1 ts r2 →
      ts.length < h.NumTrack → readTrack r2 = .panic → Decode buf = .panic) := by
  refine ⟨fun smf => ⟨?_, ?_⟩, ?_, ?_, ?_⟩
  · intro h
    unfold Decode at h
    cases hh : readHeader buf with
    | error e => rw [hh] at h; cases h
    | panic => rw [hh] at h; cases h
    | outOfFuel => rw [hh] at h; cases h
    | ok p =>
      obtain ⟨hd, r1⟩ := p
      rw [hh] at h
      dsimp only at h
      cases ht : readTracks r1 hd.NumTrack with
      | error e => rw [ht] at h; cases h
      | panic => rw [ht] at h; cases h
      | outOfFuel => rw [ht] at h; cases h
      | ok ts1 =>
        rw [ht] at h
        cases h
        obtain ⟨ts, r2, hts, hreads, hn⟩ := readTracksAux_reads_ok _ _ _ _ ht
        simp only [List.nil_append] at hts
        subst hts
        exact ⟨r1, r2, rfl, hreads, hn⟩
  · rintro ⟨r1, r2, hh, hr, hn⟩
    rw [Decode_steps hh hr 0 (by omega)]
    simp [readTracksAux]
  · intro e he
    unfold Decode
    rw [he]
  · intro h r1 ts r2 e hh hr hlt he
    rw [Decode_steps hh hr (h.NumTrack - ts.length) (by omega)]
    obtain ⟨k, hk⟩ : ∃ k, h.NumTrack - ts.length = k + 1 :=
      ⟨h.NumTrack - ts.length - 1, by omega⟩
    rw [hk, readTracksAux_succ, he]
  · intro h r1 ts r2 hh hr hlt he
    rw [Decode_steps hh hr (h.NumTrack - ts.length) (by omega)]
    obtain ⟨k, hk⟩ : ∃ k, h.NumTrack - ts.length = k + 1 :=
      ⟨h.NumTrack - ts.length - 1, by omega⟩
    rw [hk, readTracksAux_succ, he]

/-- C16 at a concrete input: the header and the three chunks of `exFile`. -/
theorem Decode_spec_witness : Decode exFile = .ok exDecoded :=
  ((Decode_spec exFile).1 exDecoded).mpr
    ⟨exTrack0 ++ exTrack1 ++ exTrack2, [], by decide,
      @ReadsTracks.cons _ (exTrack1 ++ exTrack2) _ _ _ (by decide)
        (@ReadsTracks.cons _ exTrack2 _ _ _ (by decide)
          (@ReadsTracks.cons _ [] _ _ _ (by decide) (ReadsTracks.nil []))),
      by decide⟩

/-! ## Running status on the first event of a track -/

/-- When the first `parseEvent` of a chunk fails with `e`, `readTrack` fails
with `e`. -/
theorem readTrack_first_error (hd body rest : List Byte) (e : Err) (h8 : hd.length = 8)
    (hid : hd.take 4 = magicMTrk) (hL : body.length = bigEndian ((hd.drop 4).take 4))
    (hpos : 0 < body.length) (hp : parseEvent body none = .error e) :
    readTrack (hd ++ body ++ rest) = .error e := by
  rw [readTrack_chunk hd body rest h8 hL, if_neg (by simp [hid])]
  unfold eventLoop
  rw [if_pos hpos, hp]

/-- C11: on a buffer that starts with a valid delta-time followed by a byte
whose high bit is clear, `parseEvent` with no previous event fails with the
invalid-running-status error; so `readTrack` fails with that error on every
chunk whose first event omits its status byte, and so does `Decode` when such a
chunk follows any number of well-formed chunks. -/
theorem parseEvent_no_running_status (dt : List Byte) (delta : Nat) (x : Byte)
    (data : List Byte)
    (hdt : variableLengthUint32 dt = .ok (delta, dt.length)) (hx : contBit x = false) :
    parseEvent (dt ++ x :: data) none = .error .invalidRunningStatus ∧
    (∀ hd rest : List Byte, hd.length = 8 → hd.take 4 = magicMTrk →
      bigEndian ((hd.drop 4).take 4) = (dt ++ x :: data).length →
      readTrack (hd ++ (dt ++ x :: data) ++ rest) = .error .invalidRunningStatus ∧
      ∀ (hd14 : List Byte) (h : Header) (cs : List (List Byte)) (ts : List Track),
        (∀ r2, readHeader (hd14 ++ r2) = .ok (h, r2)) → List.Forall₂ ChunkOf cs ts →
        cs.length < h.NumTrack →
        Decode (hd14 ++ (cs.flatten ++ (hd ++ (dt ++ x :: data) ++ rest)))
          = .error .invalidRunningStatus) := by
  have hp : parseEvent (dt ++ x :: data) none = .error .invalidRunningStatus := by
    rw [parseEvent_running dt delta x data none hdt hx]
  refine ⟨hp, ?_⟩
  intro hd rest h8 hid hL
  have hrt := readTrack_first_error hd (dt ++ x :: data) rest _ h8 hid hL.symm
    (by simp) hp
  refine ⟨hrt, ?_⟩
  intro hd14 h cs ts hh hf hlt
  have hlen : cs.length = ts.length := hf.length_eq
  obtain ⟨k, hk⟩ : ∃ k, h.NumTrack = ts.length + (k + 1) :=
    ⟨h.NumTrack - ts.length - 1, by omega⟩
  rw [Decode_steps (hh _) (readsTracks_of_chunks cs ts hf _) (k + 1) hk,
    readTracksAux_succ, hrt]

/-- C11 at a concrete input: a data byte right after the delta-time. -/
theorem parseEvent_no_running_status_witness :
    parseEvent [0x00, 0x3C, 0x40] none = .error .invalidRunningStatus :=
  (parseEvent_no_running_status [0x00] 0 0x3C [0x40] (by decide) (by decide)).1

/-! ## End-of-track before the chunk boundary -/

theorem eventLoop_early_eot {buf : List Byte} {prev : Option Event} {room : Nat}
    (h : ProducesEarlyEOT buf prev room) :
    ∀ (fuel ePos eEnd : Nat) (events : List Event), room = eEnd - ePos → ePos ≤ eEnd →
    room < 2 * fuel →
    eventLoop fuel buf prev ePos eEnd events = .error .unexpectedEndOfTrack := by
  induction h with
  | @here buf prev room e hp ht hlt =>
    intro fuel ePos eEnd events hroom hle hfuel
    obtain ⟨fuel, rfl⟩ : ∃ k, fuel = k + 1 := ⟨fuel - 1, by omega⟩
    have hl := parseEvent_length hp
    unfold eventLoop
    rw [if_pos (by omega), hp]
    dsimp only
    rw [sliceFrom_of_le hl.2]
    dsimp only
    rw [if_pos (Or.inr ⟨ht, by omega⟩)]
  | @later buf prev room e hp hle1 _ ih =>
    intro fuel ePos eEnd events hroom hle hfuel
    obtain ⟨fuel, rfl⟩ : ∃ k, fuel = k + 1 := ⟨fuel - 1, by omega⟩
    have hl := parseEvent_length hp
    unfold eventLoop
    rw [if_pos (by omega), hp]
    dsimp only
    rw [sliceFrom_of_le hl.2]
    dsimp only
    split_ifs with hbad
    · rfl
    · exact ih fuel (ePos + e.Length) eEnd _ (by omega) (by omega) (by omega)

/-- C15: when parsing the events of a chunk produces an end-of-track event
that ends before the declared length is reached, `readTrack` fails with the
"unexpected end of track" error; and in a track that `readTrack` returns, no
event other than the last one is an end-of-track event. -/
theorem readTrack_early_eot :
    (∀ hd body rest : List Byte, hd.length = 8 → hd.take 4 = magicMTrk →
      body.length = bigEndian ((hd.drop 4).take 4) →
      ProducesEarlyEOT body none body.length →
      readTrack (hd ++ body ++ rest) = .error .unexpectedEndOfTrack) ∧
    (∀ (r : List Byte) (t : Track) (rest : List Byte), readTrack r = .ok (t, rest) →
      ∀ i e, t.Events[i]? = some e → i + 1 < t.Events.length → e.Type_.val ≠ MTEOT) := by
  constructor
  · intro hd body rest h8 hid hL hp
    rw [readTrack_chunk hd body rest h8 hL, if_neg (by simp [hid]),
      eventLoop_early_eot hp (body.length + 1) 0 body.length [] (by omega) (by omega)
        (by omega)]
  · intro r t rest h i e he hi ht
    obtain ⟨_, _, _, _, _, _, hev⟩ := readTrack_ok h
    obtain ⟨new, hnew, _, _, heot⟩ := eventLoop_ok _ _ _ _ _ _ _ hev (Nat.zero_le _)
    simp only [List.nil_append] at hnew
    subst hnew
    have := heot i e he ht
    omega

/-- C15 at a concrete input: an end-of-track event followed by a note-on in a
chunk of declared length 8. -/
theorem readTrack_early_eot_witness :
    readTrack ([0x4D, 0x54, 0x72, 0x6B, 0, 0, 0, 8] ++
        [0x00, 0xFF, 0x2F, 0x00, 0x00, 0x90, 0x3C, 0x40] ++ [])
      = .error .unexpectedEndOfTrack :=
  readTrack_early_eot.1 [0x4D, 0x54, 0x72, 0x6B, 0, 0, 0, 8]
    [0x00, 0xFF, 0x2F, 0x00, 0x00, 0x90, 0x3C, 0x40] [] (by decide) (by decide) (by decide)
    (@ProducesEarlyEOT.here _ none _
      { Type_ := 0x2F, Channel := 0, Delta := 0, Length := 4, Value := [] }
      (by decide) (by decide) (by decide))

/-! ## The header size field, running status after a meta event -/

/-- C17: `Decode` accepts a file whose header declares the size 7 and returns a
document with `Header.Size = 7`: the size field is read and never checked. -/
theorem Decode_size_unchecked :
    Decode exFileSize7 =
      .ok { Header := { ID := magicMThd, Size := 7, Format := 1, NumTrack := 1,
                        Division := 480 },
            Tracks := [exTrack0Decoded] } := by
  decide

/-- C18: after a meta event (status byte 0xFF, type 0x51), `parseEvent` on
`00 03 02 41 42` does not behave as on `00 FF 03 02 41 42`: it takes the meta
type 0x51 as the status byte and returns a one-byte channel event of kind 0x50
on channel 1, where the buffer with 0xFF inserted is a meta event of type 0x03
with the payload `41 42`. -/
theorem parseEvent_running_after_meta :
    parseEvent [0x00, 0xFF, 0x51, 0x03, 0x07, 0xA1, 0x20] none = .ok exTempo ∧
    parseEvent [0x00, 0x03, 0x02, 0x41, 0x42] (some exTempo) =
      .ok { Type_ := 0x50, Channel := 1, Delta := 0, Length := 2, Value := [0x03] } ∧
    parseEvent [0x00, 0xFF, 0x03, 0x02, 0x41, 0x42] (some exTempo) =
      .ok { Type_ := 0x03, Channel := 0, Delta := 0, Length := 6, Value := [0x41, 0x42] } := by
  refine ⟨by decide, by decide, by decide⟩

/-! ## Decoding what SwapTrack wrote -/

theorem getElem?_swapList {α : Type} (l : List α) (a b : Nat) (d : α)
    (ha : a < l.length) (hb : b < l.length) (i : Nat) (hi : i < l.length) :
    (swapList l a b d)[i]? = l[transposition a b i]? := by
  have hlt := transposition_lt ha hb hi
  rw [swapList_eq_map l a b d ha hb, List.getElem?_map,
    List.getElem?_range hi, List.getElem?_eq_getElem hlt]
  simp [List.getElem?_eq_getElem hlt]

/-- C19: for every input that `Decode` accepts and all track indices `a`, `b`
below its number of tracks, `Decode` accepts what `SwapTrack` writes, and the
document it returns has the same Header and the same tracks, those at the
positions `a` and `b` exchanged. -/
theorem SwapTrack_Decode (buf : List Byte) (smf : SMF) (a b : Nat)
    (hdec : Decode buf = .ok smf)
    (ha : a < smf.Tracks.length) (hb : b < smf.Tracks.length) :
    ∃ out smf1, SwapTrack buf a b = .ok out ∧ Decode out = .ok smf1 ∧
      smf1.Header = smf.Header ∧ smf1.Tracks.length = smf.Tracks.length ∧
      ∀ i, i < smf.Tracks.length → smf1.Tracks[i]? = smf.Tracks[transposition a b i]? := by
  obtain ⟨cs, rest, hbuf, h14, hf, hn, hhd⟩ := Decode_ok hdec
  have hlen : smf.Tracks.length = cs.length := hf.length_eq.symm
  have ha1 : a < cs.length := hlen ▸ ha
  have hb1 : b < cs.length := hlen ▸ hb
  have hf1 := forall₂_swapList hf a b [] exTrack0Decoded ha1 hb1
  have hdec1 := Decode_chunks hhd hf1 (by rw [length_swapList]; exact hn) []
  rw [List.append_nil] at hdec1
  refine ⟨_, _, SwapTrack_chunks hdec hbuf h14 hf hn a b ha1 hb1, hdec1, rfl,
    length_swapList _ _ _ _, ?_⟩
  intro i hi
  exact getElem?_swapList smf.Tracks a b exTrack0Decoded ha hb i hi

/-- C19 at a concrete input: tracks 1 and 2 of the three-track file. -/
theorem SwapTrack_Decode_witness :
    ∃ out smf1, SwapTrack exFile 1 2 = .ok out ∧ Decode out = .ok smf1 ∧
      smf1.Header = exDecoded.Header ∧ smf1.Tracks.length = exDecoded.Tracks.length ∧
      ∀ i, i < exDecoded.Tracks.length →
        smf1.Tracks[i]? = exDecoded.Tracks[transposition 1 2 i]? :=
  SwapTrack_Decode exFile exDecoded 1 2 (by decide) (by decide) (by decide)

end Smftool
